import Mathlib

/-!
Verification of the dzcb codeplug-to-table compiler (dmrconfig output filter).

This file gives a shallow embedding, in Lean 4, of the parts of the
repository relevant to the frozen claims:

* `src/dzcb/output/dmrconfig.py` — range compression (`items_to_range_tuples`,
  `format_ranges`), index resolution (`items_by_index`,
  `CodeplugIndexLookup`), the six table renderers, template parsing
  (`DmrConfigTemplate.read_template`) and rendering
  (`Dmrconfig_Codeplug.render` / `render_template`).
* `src/dzcb/munge.py` — the channel-name normalizer (`channel_name`).

Strings are embedded as `List Char`; Python line lists are `List (List Char)`.
The abstract codeplug data model lives in `dzcb/model.py`, which is not part
of this repository snapshot; those definitions are modelled from the spec and
carry a doc comment saying so.
-/

namespace Dzcb

/-- A Python string, embedded as its list of characters. -/
abbrev PyStr := List Char

/-- Character list of a Lean string literal (used to transcribe Python
string literals). -/
def strL (s : String) : PyStr := s.toList

/-! ## Range compression: `items_to_range_tuples`, `format_ranges` -/

/-- A `Range` in `dmrconfig.py` is `Union[int, Tuple[int, int]]`:
either a bare index or a `(low, high)` pair. -/
inductive RangeTok where
  | single (n : Int)
  | pair (lo hi : Int)
deriving DecidableEq, Repr

/-- One iteration of the accumulation loop in `items_to_range_tuples`:
given the `selected_ranges` built so far and the next `selected_index`,
either merge into the last token (when consecutive) or append a new
single-value token. Mirrors the Python loop body verbatim. -/
def rangeLoopStep (acc : List RangeTok) (selectedIndex : Int) : List RangeTok :=
  match acc.getLast? with
  | none => [RangeTok.single selectedIndex]
  | some last =>
    let lp : Int × Int :=
      match last with
      | RangeTok.single p => (p, p)
      | RangeTok.pair lo p => (lo, p)
    if lp.2 + 1 = selectedIndex then
      acc.dropLast ++ [RangeTok.pair lp.1 selectedIndex]
    else
      acc ++ [RangeTok.single selectedIndex]

/-- The index-folding core of `items_to_range_tuples`: the Python `for`
loop over the tuple of looked-up indexes, with `selected_ranges` as the
accumulator. -/
def range_tuples_of_indices (indices : List Int) : List RangeTok :=
  indices.foldl rangeLoopStep []

/-- Look up every selected item in turn; the first missing item aborts
(a Python `KeyError`, embedded as `none`). -/
def lookupAll {α : Type} (lookup : α → Option Int) : List α → Option (List Int)
  | [] => some []
  | x :: rest =>
    match lookup x with
    | none => none
    | some i => (lookupAll lookup rest).map (fun is => i :: is)

/-- `items_to_range_tuples(items_by_index, selected_items, key=None)`:
first each selected item is looked up (the tuple generator; a missing
item raises `KeyError`, embedded as `none`), then the loop folds the
indexes into ranges. -/
def items_to_range_tuples {α : Type} (lookup : α → Option Int)
    (selectedItems : List α) : Option (List RangeTok) :=
  (lookupAll lookup selectedItems).map range_tuples_of_indices

/-- `format_ranges(ranges)`: comma-joined tokens, a pair as `low-high`. -/
def format_ranges (ranges : List RangeTok) : PyStr :=
  strL (String.intercalate ","
    (ranges.map fun r =>
      match r with
      | RangeTok.single n => toString n
      | RangeTok.pair lo hi => toString lo ++ "-" ++ toString hi))

/-! Expansion of range tokens (the spec's re-expansion of §4.3, used to
state the round-trip and minimality claims). -/

/-- `intRangeGo n a = [a, a+1, ..., a+n-1]`. -/
def intRangeGo : Nat → Int → List Int
  | 0, _ => []
  | n + 1, a => a :: intRangeGo n (a + 1)

/-- The integers from `lo` to `hi` inclusive (empty when `hi < lo`). -/
def intRange (lo hi : Int) : List Int :=
  intRangeGo (hi + 1 - lo).toNat lo

/-- Expansion of a single token: a bare integer expands to itself, a
pair `(low, high)` expands to `low, low+1, ..., high`. -/
def expandTok : RangeTok → List Int
  | RangeTok.single n => [n]
  | RangeTok.pair lo hi => intRange lo hi

/-- Expansion of a token sequence, concatenated in token order. -/
def expandAll (toks : List RangeTok) : List Int :=
  toks.flatMap expandTok

/-- Count of adjacent positions in a list that are not consecutive
(ascending by exactly one).  Used to measure range tokenizations. -/
def breaks : List Int → Nat
  | [] => 0
  | [_] => 0
  | a :: b :: rest => (if a + 1 = b then 0 else 1) + breaks (b :: rest)

/-! A structurally recursive reformulation of the range-compression loop,
used for the proofs and shown equal to the `foldl` translation. -/

/-- Close the current run `[lo..prev]` into a token. -/
def mkTok (lo prev : Int) : RangeTok :=
  if lo = prev then RangeTok.single lo else RangeTok.pair lo prev

/-- Recursive form of the compression loop: the current token spans
`lo..prev`, and `rest` is the remaining input. -/
def extendTok (lo prev : Int) : List Int → List RangeTok
  | [] => [mkTok lo prev]
  | i :: rest =>
    if prev + 1 = i then extendTok lo i rest
    else mkTok lo prev :: extendTok i i rest

/-- Recursive form of `range_tuples_of_indices`. -/
def rangeTuplesRec : List Int → List RangeTok
  | [] => []
  | i :: rest => extendTok i i rest

/-! ## Character and string helpers shared by `munge.py` and the
template parser. -/

/-- `[A-Z]` of the Python regex (a literal ASCII range). -/
def isUpperCh (c : Char) : Bool := 'A' ≤ c && c ≤ 'Z'

/-- ASCII lowercase letters (every replacement key ends in one). -/
def isLowerCh (c : Char) : Bool := 'a' ≤ c && c ≤ 'z'

/-- The ASCII fragment of Python's `\s` character class; the inputs of
interest are ASCII. -/
def isSpaceCh (c : Char) : Bool :=
  c = ' ' || c = '\t' || c = '\n' || c = '\r' ||
  c = Char.ofNat 11 || c = Char.ofNat 12

/-- `leadsWith pat s` : does `s` start with `pat`? -/
def leadsWith : PyStr → PyStr → Bool
  | [], _ => true
  | _ :: _, [] => false
  | p :: ps, c :: cs => p = c && leadsWith ps cs

/-- Python `str.replace(key, val)` for a nonempty `key`: scan left to
right, replacing non-overlapping occurrences.  Each step consumes at
least one character, so the scan is driven structurally by a fuel
argument instantiated with the string's length (which makes the
function kernel-evaluable). -/
def replaceAllGo (key val : PyStr) : Nat → PyStr → PyStr
  | 0, s => s
  | _ + 1, [] => []
  | fuel + 1, c :: rest =>
    if 0 < key.length ∧ leadsWith key (c :: rest) then
      val ++ replaceAllGo key val fuel ((c :: rest).drop key.length)
    else
      c :: replaceAllGo key val fuel rest

/-- Python `str.replace(key, val)` for a nonempty `key`. -/
def replaceAll (key val s : PyStr) : PyStr := replaceAllGo key val s.length s

/-- Python `str.partition(sep)` for nonempty `sep`: split at the first
occurrence, `none` when `sep` does not occur. -/
def splitFirst (sep : PyStr) : PyStr → Option (PyStr × PyStr)
  | [] => none
  | c :: rest =>
    if leadsWith sep (c :: rest) then some ([], (c :: rest).drop sep.length)
    else (splitFirst sep rest).map (fun p => (c :: p.1, p.2))

/-- Python `sub in s` for nonempty `sub`. -/
def containsSub (sub s : PyStr) : Bool := (splitFirst sub s).isSome

/-- ASCII lowering of one character (`str.lower` on the ASCII inputs at
hand). -/
def asciiLower (c : Char) : Char :=
  if 'A' ≤ c ∧ c ≤ 'Z' then Char.ofNat (c.toNat + 32) else c

/-- ASCII `str.lower()`. -/
def lowerStr (s : PyStr) : PyStr := s.map asciiLower

/-- Left-justified padding to width `w` — Python `"{:w}".format(s)` for
a string value (no truncation). -/
def padTo (w : Nat) (s : PyStr) : PyStr := s ++ List.replicate (w - s.length) ' '

/-- Right-justified padding to width `w` — Python `"{:w}".format(n)` for
a numeric value. -/
def padNumTo (w : Nat) (s : PyStr) : PyStr := List.replicate (w - s.length) ' ' ++ s

/-- Python `str(n)` for an `int`. -/
def intStr (n : Int) : PyStr := strL (toString n)

/-- Python `str(n)` for a nonnegative size. -/
def natStr (n : Nat) : PyStr := strL (toString n)

/-- `sep.join(xs)`. -/
def joinWith (sep : PyStr) : List PyStr → PyStr
  | [] => []
  | [l] => l
  | l :: rest => l ++ sep ++ joinWith sep rest

/-- `"\n".join(lines)`. -/
def joinNL (lines : List PyStr) : PyStr := joinWith ['\n'] lines

/-! ## `dzcb/munge.py` — the Name Normalizer -/

/-- `Talkgroup_Channel_name_replacements`, listed in the order
`dict.popitem()` pops them (LIFO: reverse of insertion order). -/
def talkgroupReplacements : List (PyStr × PyStr) := [
  (strL "Worldwide", strL "WW"),
  (strL "Washington", strL "WA"),
  (strL "Utah", strL "UT"),
  (strL "Oregon", strL "OR"),
  (strL "North America", strL "NA"),
  (strL "Montana", strL "MT"),
  (strL "Idaho", strL "ID"),
  (strL "Hawaii", strL "HI"),
  (strL "English", strL "Eng"),
  (strL "California", strL "CA"),
  (strL "Audio Test", strL "A.Test")]

/-- The `while len(ch_name) > max_length` replacement loop of
`channel_name`: stop when the name fits or the replacement dict is
exhausted, otherwise pop the next pair and replace. -/
def applyReplacements : List (PyStr × PyStr) → PyStr → Nat → PyStr
  | [], s, _ => s
  | (k, v) :: rest, s, maxLength =>
    if s.length ≤ maxLength then s
    else applyReplacements rest (replaceAll k v s) maxLength

/-- The maximal run of uppercase letters at the end of `s`. -/
def upperRun (s : PyStr) : PyStr := (s.reverse.takeWhile isUpperCh).reverse

/-- The text matched by `re.search(r"[12]?\s[A-Z]+$", ch_name)`, if any.
Because the pattern is anchored at the end and `[A-Z]+` cannot cross a
non-letter, any match consists of the maximal uppercase run at the end
of the string, the whitespace character immediately before that run,
and — since `re.search` returns the leftmost match and `[12]?` is
greedy — the single preceding character when it is `1` or `2`. -/
def tailCode (s : PyStr) : Option PyStr :=
  let run := upperRun s
  if run.isEmpty then none
  else
    let rest := s.take (s.length - run.length)
    match rest.getLast? with
    | none => none
    | some w =>
      if isSpaceCh w then
        match rest.dropLast.getLast? with
        | some d => if d = '1' ∨ d = '2' then some (d :: w :: run) else some (w :: run)
        | none => some (w :: run)
      else none

/-- Whether a string does not end in the digit `1` or `2` (the
boundary condition under which the tail-code regex cannot pick up an
extra leading digit). -/
def lastNotDigitB (x : PyStr) : Bool :=
  match x.getLast? with
  | none => true
  | some c => !(c = '1' || c = '2')

/-- `dzcb.munge.channel_name(ch_name, max_length)`: apply the
replacement dictionary while the name is over-long, then attempt a
tail-preserving truncation, then hard-truncate to `max_length`. -/
def channel_name (chName : PyStr) (maxLength : Nat) : PyStr :=
  let s1 := applyReplacements talkgroupReplacements chName maxLength
  let s2 :=
    match tailCode s1 with
    | some tc =>
      if s1.length > maxLength then
        if maxLength > tc.length + 1 then
          let nTrunc := s1.length - maxLength
          s1.take (s1.length - (nTrunc + tc.length)) ++ s1.drop (s1.length - tc.length)
        else s1
      else s1
    | none => s1
  s2.take maxLength

/-! ## `dzcb/output/dmrconfig.py` — radios and their static limit tables -/

/-- The `Radio` enumeration. -/
inductive Radio where
  | D868 | DMR6X2 | GD77 | MD_UV380 | MD_380 | RD5R
deriving DecidableEq, Repr

/-- The `value` of each `Radio` member (its canonical display name). -/
def Radio.value : Radio → PyStr
  | .D868 => strL "Anytone AT-D868UV"
  | .DMR6X2 => strL "BTECH DMR-6x2"
  | .GD77 => strL "Radioddity GD-77"
  | .MD_UV380 => strL "TYT MD-UV380"
  | .MD_380 => strL "TYT MD-380"
  | .RD5R => strL "Baofeng RD-5R"

/-- `Radio(s)` — value lookup in the enumeration; `none` embeds the
`ValueError` Python raises for an unknown value. -/
def radioFromValue (s : PyStr) : Option Radio :=
  if s = strL "Anytone AT-D868UV" then some .D868
  else if s = strL "BTECH DMR-6x2" then some .DMR6X2
  else if s = strL "Radioddity GD-77" then some .GD77
  else if s = strL "TYT MD-UV380" then some .MD_UV380
  else if s = strL "TYT MD-380" then some .MD_380
  else if s = strL "Baofeng RD-5R" then some .RD5R
  else none

/-- `channel_limit` lookup table. -/
def channel_limit : Radio → Int × Int
  | .D868 => (1, 4000)
  | .DMR6X2 => (1, 4000)
  | .RD5R => (1, 1024)
  | .GD77 => (1, 1024)
  | .MD_380 => (1, 1000)
  | .MD_UV380 => (1, 3000)

/-- `zone_limit` lookup table. -/
def zone_limit : Radio → Int × Int := fun _ => (1, 250)

/-- `scanlist_limit` lookup table (`None` for the RD-5R). -/
def scanlist_limit : Radio → Option (Int × Int)
  | .RD5R => none
  | .GD77 => some (1, 64)
  | _ => some (1, 250)

/-- `contact_limit` lookup table. -/
def contact_limit : Radio → Int × Int
  | .RD5R => (1, 256)
  | .GD77 => (1, 1024)
  | _ => (1, 10000)

/-- `grouplist_limit` lookup table. -/
def grouplist_limit : Radio → Int × Int
  | .RD5R => (1, 64)
  | .GD77 => (1, 76)
  | _ => (1, 250)

/-- `name_limit` lookup table (16 for every radio). -/
def name_limit : Radio → Nat := fun _ => 16

/-- `plus_minus` lookup table. -/
def plus_minus (b : Bool) : PyStr := if b then strL "+" else strL "-"

/-! ## The abstract codeplug model.

`dzcb/model.py` is not part of this repository snapshot; the claims only
exercise the fields the dmrconfig renderers read. Modelled from the
spec (§3): channels (analog or digital variant), zones, scan lists,
contacts, group lists, and the aggregate `Codeplug`. Numeric fields
whose concrete type the spec leaves open (frequencies, offsets) are
modelled as integers. -/

/-- Modelled from the spec: the model's power levels. -/
inductive Power where
  | HIGH | MED | LOW | TURBO
deriving DecidableEq, Repr

/-- Modelled from the spec: the display value of each power level. -/
def Power.value : Power → PyStr
  | .HIGH => strL "High"
  | .MED => strL "Med"
  | .LOW => strL "Low"
  | .TURBO => strL "Turbo"

/-- The keys of the per-radio `power` table (`power[radio]`), in
insertion order. -/
def power_keys : Radio → List Power
  | .D868 => [.HIGH, .MED, .LOW, .TURBO]
  | .DMR6X2 => [.HIGH, .MED, .LOW, .TURBO]
  | .MD_UV380 => [.HIGH, .MED, .LOW]
  | _ => [.HIGH, .LOW]

/-- Modelled from the spec: `Power.flattened(mapping)` maps a power
level through the radio's enumeration table; a value absent from that
table is rejected (§4.4), embedded as `none`. -/
def Power.flattened (p : Power) (supported : List Power) : Option Power :=
  if p ∈ supported then some p else none

/-- Modelled from the spec: the model's bandwidths. -/
inductive Bandwidth where
  | _125 | _25
deriving DecidableEq, Repr

/-- Modelled from the spec: the display value of each bandwidth. -/
def Bandwidth.value : Bandwidth → PyStr
  | ._125 => strL "12.5"
  | ._25 => strL "25"

/-- The keys of the per-radio `bandwidth` table, in insertion order
(both bandwidths for every radio). -/
def bandwidth_keys : Radio → List Bandwidth := fun _ => [._125, ._25]

/-- Modelled from the spec: `Bandwidth.flattened(mapping)`, as for
`Power.flattened`. -/
def Bandwidth.flattened (b : Bandwidth) (supported : List Bandwidth) : Option Bandwidth :=
  if b ∈ supported then some b else none

/-- Modelled from the spec: contact call kinds (group/private/all). -/
inductive ContactKind where
  | group | privateCall | allCall
deriving DecidableEq, Repr

/-- Modelled from the spec: the canonical label of each call kind. -/
def ContactKind.value : ContactKind → PyStr
  | .group => strL "Group"
  | .privateCall => strL "Private"
  | .allCall => strL "All"

/-- Modelled from the spec: a contact (talkgroups carry a timeslot). -/
structure Contact where
  name : PyStr
  kind : ContactKind
  dmrid : Int
  timeslot : Int
deriving DecidableEq, Repr

/-- Modelled from the spec: an analog channel. `scanlist` holds the
referenced scan list's id, when any. -/
structure AnalogChannel where
  short_name : PyStr
  frequency : Int
  offset : Int
  power : Power
  scanlist : Option PyStr
  rx_only : Bool
  tone_decode : Option PyStr
  tone_encode : Option PyStr
  bandwidth : Bandwidth
deriving DecidableEq, Repr

/-- Modelled from the spec: a digital channel. `grouplist` holds the
referenced group list's id, when any. -/
structure DigitalChannel where
  short_name : PyStr
  frequency : Int
  offset : Int
  power : Power
  scanlist : Option PyStr
  rx_only : Bool
  color_code : Int
  talkgroup : Option Contact
  grouplist : Option PyStr
deriving DecidableEq, Repr

/-- Modelled from the spec: a channel is an analog or digital variant
(the Python code discriminates with `isinstance`). -/
inductive Channel where
  | analog (a : AnalogChannel)
  | digital (d : DigitalChannel)
deriving DecidableEq, Repr

/-- Modelled from the spec: a zone (its ordered, de-duplicated channel
references, as the `unique_channels` property the renderer reads). -/
structure Zone where
  name : PyStr
  unique_channels : List Channel
deriving DecidableEq, Repr

/-- Modelled from the spec: a scan list (`sid` stands for the Python
`_id` attribute). -/
structure Scanlist where
  sid : PyStr
  name : PyStr
  channels : List Channel
deriving DecidableEq, Repr

/-- Modelled from the spec: a group list (`gid` stands for the Python
`_id` attribute). -/
structure Grouplist where
  gid : PyStr
  name : PyStr
  contacts : List Contact
deriving DecidableEq, Repr

/-- Modelled from the spec: the aggregate codeplug root. -/
structure Codeplug where
  contacts : List Contact
  channels : List Channel
  grouplists : List Grouplist
  scanlists : List Scanlist
  zones : List Zone
deriving DecidableEq, Repr

/-! ## Index resolution -/

/-- Python `enumerate(items)` with a given start index, as index–item
pairs. -/
def enumFromIx {α : Type} (start : Nat) : List α → List (Nat × α)
  | [] => []
  | x :: rest => (start, x) :: enumFromIx (start + 1) rest

/-- `items_by_index(all_items, key, offset)`: the dict mapping
`key(item)` to `ix + offset`; on duplicate keys the last enumeration
wins, exactly as repeated dict assignment does. -/
def items_by_index {α β : Type} [DecidableEq β]
    (allItems : List α) (key : α → β) (offset : Int) : β → Option Int :=
  fun b =>
    ((enumFromIx 0 allItems).filterMap
      (fun p => if key p.2 = b then some ((p.1 : Int) + offset) else none)).getLast?

/-- `CodeplugIndexLookup`: one lookup per referenced entity kind. -/
structure CodeplugIndexLookup where
  contact : Contact → Option Int
  grouplist_id : PyStr → Option Int
  scanlist_id : PyStr → Option Int
  channel : Channel → Option Int

/-- Build the `CodeplugIndexLookup` defaults from a codeplug and an
offset. -/
def buildIndex (cp : Codeplug) (offset : Int) : CodeplugIndexLookup where
  contact := items_by_index cp.contacts id offset
  grouplist_id := items_by_index cp.grouplists (fun gl => gl.gid) offset
  scanlist_id := items_by_index cp.scanlists (fun sl => sl.sid) offset
  channel := items_by_index cp.channels id offset

/-- `Table._index_default`: the lookup every table uses, built with
offset 1. -/
def defaultIndex (cp : Codeplug) : CodeplugIndexLookup := buildIndex cp 1

/-! ## Table rendering -/

/-- `Table.name_munge`: truncate to the radio's name limit, then
replace spaces with underscores. -/
def name_munge (radio : Radio) (name : PyStr) : PyStr :=
  (name.take (name_limit radio)).map (fun c => if c = ' ' then '_' else c)

/-- A value placed into a format slot: Python right-justifies numbers
and left-justifies strings. -/
inductive PyVal where
  | int (n : Int)
  | str (s : PyStr)

/-- Format a value into a width-`w` slot. -/
def PyVal.fmt (w : Nat) : PyVal → PyStr
  | .int n => padNumTo w (intStr n)
  | .str s => padTo w s

/-- Format a value into a width-less slot. -/
def PyVal.raw : PyVal → PyStr
  | .int n => intStr n
  | .str s => s

/-- `index.scanlist_id.get(ch.scanlist, "-")` (and likewise for group
lists): a missing or absent reference renders as `-`. -/
def refOrDash (lookup : PyStr → Option Int) : Option PyStr → PyVal
  | none => .str (strL "-")
  | some theId =>
    match lookup theId with
    | some i => .int i
    | none => .str (strL "-")

/-- `index.contact.get(ch.talkgroup, "-")`. -/
def contactRefOrDash (lookup : Contact → Option Int) : Option Contact → PyVal
  | none => .str (strL "-")
  | some c =>
    match lookup c with
    | some i => .int i
    | none => .str (strL "-")

/-- `ch.tone_decode or "-"`: Python falsiness maps an absent or empty
tone to `-`. -/
def toneOrDash : Option PyStr → PyStr
  | none => strL "-"
  | some t => if t = [] then strL "-" else t

/-- A single space between format slots. -/
def sp : PyStr := [' ']

/-- Collect a list of fallible rows; the first failure aborts. -/
def collectSome {α : Type} : List (Option α) → Option (List α)
  | [] => some []
  | none :: _ => none
  | some x :: rest => (collectSome rest).map (fun xs => x :: xs)

/-- `AnalogChannelTable.item_to_dict` + `format_row`, for row number
`index`: the fixed-width analog channel row. `none` embeds the
rejection of a power or bandwidth value unsupported by the radio. -/
def analogRow (idx : CodeplugIndexLookup) (radio : Radio) (index : Int)
    (ch : AnalogChannel) : Option PyStr :=
  match ch.power.flattened (power_keys radio),
      ch.bandwidth.flattened (bandwidth_keys radio) with
  | some pw, some bw =>
    some (PyVal.fmt 6 (.int index) ++ sp
      ++ padTo 16 (name_munge radio ch.short_name) ++ sp
      ++ PyVal.fmt 8 (.int ch.frequency) ++ sp
      ++ PyVal.fmt 8 (.int (ch.frequency + ch.offset)) ++ sp
      ++ padTo 5 pw.value ++ sp
      ++ (refOrDash idx.scanlist_id ch.scanlist).fmt 4 ++ sp
      ++ PyVal.fmt 3 (.int 90) ++ sp
      ++ padTo 2 (plus_minus ch.rx_only) ++ sp
      ++ padTo 5 (strL "Free") ++ sp
      ++ padTo 7 (strL "Normal") ++ sp
      ++ padTo 6 (toneOrDash ch.tone_decode) ++ sp
      ++ padTo 6 (toneOrDash ch.tone_encode) ++ sp
      ++ bw.value)
  | _, _ => none

/-- `DigitalChannelTable.item_to_dict` + `format_row` (the table only
renders channels whose talkgroup `tg` is present). -/
def digitalRow (idx : CodeplugIndexLookup) (radio : Radio) (index : Int)
    (ch : DigitalChannel) (tg : Contact) : Option PyStr :=
  match ch.power.flattened (power_keys radio) with
  | some pw =>
    some (PyVal.fmt 7 (.int index) ++ sp
      ++ padTo 16 (name_munge radio ch.short_name) ++ sp
      ++ PyVal.fmt 8 (.int ch.frequency) ++ sp
      ++ PyVal.fmt 8 (.int (ch.frequency + ch.offset)) ++ sp
      ++ padTo 5 pw.value ++ sp
      ++ (refOrDash idx.scanlist_id ch.scanlist).fmt 4 ++ sp
      ++ PyVal.fmt 3 (.int 90) ++ sp
      ++ padTo 2 (plus_minus ch.rx_only) ++ sp
      ++ padTo 5 (strL "Color") ++ sp
      ++ PyVal.fmt 5 (.int ch.color_code) ++ sp
      ++ PyVal.fmt 4 (.int tg.timeslot) ++ sp
      ++ (refOrDash idx.grouplist_id ch.grouplist).fmt 4 ++ sp
      ++ (contactRefOrDash idx.contact ch.talkgroup).raw)
  | none => none

/-- `ZoneTable.item_to_dict` + `format_row`; `none` embeds the
`KeyError` of an unresolved channel reference. -/
def zoneRow (idx : CodeplugIndexLookup) (radio : Radio) (index : Int)
    (z : Zone) : Option PyStr :=
  (items_to_range_tuples idx.channel z.unique_channels).map (fun toks =>
    PyVal.fmt 4 (.int index) ++ sp
      ++ padTo 16 (name_munge radio z.name) ++ sp
      ++ format_ranges toks)

/-- `ScanlistTable.item_to_dict` + `format_row`. -/
def scanlistRow (idx : CodeplugIndexLookup) (radio : Radio) (index : Int)
    (sl : Scanlist) : Option PyStr :=
  (items_to_range_tuples idx.channel sl.channels).map (fun toks =>
    PyVal.fmt 8 (.int index) ++ sp
      ++ padTo 16 (name_munge radio sl.name) ++ sp
      ++ padTo 4 (strL "Curr") ++ sp
      ++ padTo 4 (strL "-") ++ sp
      ++ padTo 4 (strL "Last") ++ sp
      ++ format_ranges toks)

/-- `ContactsTable.item_to_dict` + `format_row` (always succeeds). -/
def contactRow (radio : Radio) (index : Int) (c : Contact) : PyStr :=
  PyVal.fmt 8 (.int index) ++ sp
    ++ padTo 16 (name_munge radio c.name) ++ sp
    ++ padTo 7 c.kind.value ++ sp
    ++ PyVal.fmt 8 (.int c.dmrid) ++ sp
    ++ strL "-"

/-- `GrouplistTable.item_to_dict` + `format_row`. -/
def grouplistRow (idx : CodeplugIndexLookup) (radio : Radio) (index : Int)
    (gl : Grouplist) : Option PyStr :=
  (items_to_range_tuples idx.contact gl.contacts).map (fun toks =>
    PyVal.fmt 10 (.int index) ++ sp
      ++ padTo 16 (name_munge radio gl.name) ++ sp
      ++ format_ranges toks)

/-- `AnalogChannelTable.__iter__`: enumerate the full channel
collection, keep analog channels, render each with row number
`ix + 1`. -/
def analogRows (cp : Codeplug) (radio : Radio) : Option (List PyStr) :=
  collectSome ((enumFromIx 0 cp.channels).filterMap (fun p =>
    match p.2 with
    | Channel.analog a => some (analogRow (defaultIndex cp) radio ((p.1 : Int) + 1) a)
    | Channel.digital _ => none))

/-- `DigitalChannelTable.__iter__`: enumerate the full channel
collection, keep digital channels with a talkgroup, render each with
row number `ix + 1`. -/
def digitalRows (cp : Codeplug) (radio : Radio) : Option (List PyStr) :=
  collectSome ((enumFromIx 0 cp.channels).filterMap (fun p =>
    match p.2 with
    | Channel.digital d =>
      match d.talkgroup with
      | some tg => some (digitalRow (defaultIndex cp) radio ((p.1 : Int) + 1) d tg)
      | none => none
    | Channel.analog _ => none))

/-- `Table.__iter__` for the zone table. -/
def zoneRows (cp : Codeplug) (radio : Radio) : Option (List PyStr) :=
  collectSome ((enumFromIx 0 cp.zones).map (fun p =>
    zoneRow (defaultIndex cp) radio ((p.1 : Int) + 1) p.2))

/-- `Table.__iter__` for the scan list table. -/
def scanlistRows (cp : Codeplug) (radio : Radio) : Option (List PyStr) :=
  collectSome ((enumFromIx 0 cp.scanlists).map (fun p =>
    scanlistRow (defaultIndex cp) radio ((p.1 : Int) + 1) p.2))

/-- `Table.__iter__` for the contacts table. -/
def contactRows (cp : Codeplug) (radio : Radio) : List PyStr :=
  (enumFromIx 0 cp.contacts).map (fun p => contactRow radio ((p.1 : Int) + 1) p.2)

/-- `Table.__iter__` for the group list table. -/
def grouplistRows (cp : Codeplug) (radio : Radio) : Option (List PyStr) :=
  collectSome ((enumFromIx 0 cp.grouplists).map (fun p =>
    grouplistRow (defaultIndex cp) radio ((p.1 : Int) + 1) p.2))

/-! ## Documentation blocks and column-header lines -/

/-- Modelled from the spec: the package version string
(`dzcb.__version__`), whose defining module is not in this snapshot;
its value is irrelevant to the claims. -/
def dzcb_version : PyStr := strL "0.0.0"

/-- The version-stamped comment line at the top of `render()`. -/
def versionLine : PyStr := strL "# Written by dzcb.output.dmrconfig v. " ++ dzcb_version

/-- A limit tuple rendered the way `format_ranges([limit])` renders it. -/
def limitStr (p : Int × Int) : PyStr := format_ranges [RangeTok.pair p.1 p.2]

/-- `format_ranges([scanlist_limit[radio]])` — `str(None)` is `"None"`
for the RD-5R, whose scan list limit is `None`. -/
def scanlistLimitStr (radio : Radio) : PyStr :=
  match scanlist_limit radio with
  | none => strL "None"
  | some p => limitStr p

/-- `", ".join(p.value for p in power[radio])`. -/
def powerDocStr (radio : Radio) : PyStr :=
  joinWith (strL ", ") ((power_keys radio).map Power.value)

/-- `", ".join(b.value for b in bandwidth[radio])`. -/
def bandwidthDocStr (radio : Radio) : PyStr :=
  joinWith (strL ", ") ((bandwidth_keys radio).map Bandwidth.value)

/-- `AnalogChannelTable.docs()`: the class docstring with its limit
slots substituted, `"    #"` rewritten to `"#"` and the trailing
whitespace stripped (the leading newline of the docstring remains). -/
def analogDocs (radio : Radio) : PyStr :=
  '\n' :: joinNL [
    strL "# Table of analog channels.",
    strL "# 1) Channel number: " ++ limitStr (channel_limit radio),
    strL "# 2) Name: up to " ++ natStr (name_limit radio) ++ strL " characters, use '_' instead of space",
    strL "# 3) Receive frequency in MHz",
    strL "# 4) Transmit frequency or +/- offset in MHz",
    strL "# 5) Transmit power: " ++ powerDocStr radio,
    strL "# 6) Scan list: - or index",
    strL "# 7) Transmit timeout timer: (unused)",
    strL "# 8) Receive only: -, +",
    strL "# 9) Admit criteria: -, Free, Tone",
    strL "# 10) Squelch level: Normal (unused)",
    strL "# 11) Guard tone for receive, or '-' to disable",
    strL "# 12) Guard tone for transmit, or '-' to disable",
    strL "# 13) Bandwidth in kHz: " ++ bandwidthDocStr radio]

/-- `DigitalChannelTable.docs()`. -/
def digitalDocs (radio : Radio) : PyStr :=
  '\n' :: joinNL [
    strL "# Table of digital channels.",
    strL "# 1) Channel number: " ++ limitStr (channel_limit radio),
    strL "# 2) Name: up to " ++ natStr (name_limit radio) ++ strL " characters, use '_' instead of space",
    strL "# 3) Receive frequency in MHz",
    strL "# 4) Transmit frequency or +/- offset in MHz",
    strL "# 5) Transmit power: " ++ powerDocStr radio,
    strL "# 6) Scan list: - or index in Scanlist table",
    strL "# 7) Transmit timeout timer: (unused)",
    strL "# 8) Receive only: -, +",
    strL "# 9) Admit criteria: -, Free, Color, NColor",
    strL "# 10) Color code: 0, 1, 2, 3... 15",
    strL "# 11) Time slot: 1 or 2",
    strL "# 12) Receive group list: - or index in Grouplist table",
    strL "# 13) Contact for transmit: - or index in Contacts table"]

/-- `ZoneTable.docs()`. -/
def zoneDocs (radio : Radio) : PyStr :=
  '\n' :: joinNL [
    strL "# Table of channel zones.",
    strL "# 1) Zone number: " ++ limitStr (zone_limit radio),
    strL "# 2) Name: up to 16 characters, use '_' instead of space",
    strL "# 3) List of channels: numbers and ranges (N-M) separated by comma"]

/-- `ScanlistTable.docs()`. -/
def scanlistDocs (radio : Radio) : PyStr :=
  '\n' :: joinNL [
    strL "# Table of scan lists.",
    strL "# 1) Scan list number: " ++ scanlistLimitStr radio,
    strL "# 2) Name: up to 16 characters, use '_' instead of space",
    strL "# 3) Priority channel 1: -, Curr or index",
    strL "# 4) Priority channel 2: -, Curr or index",
    strL "# 5) Designated transmit channel: Sel or Last",
    strL "# 6) List of channels: numbers and ranges (N-M) separated by comma"]

/-- `ContactsTable.docs()`. -/
def contactDocs (radio : Radio) : PyStr :=
  '\n' :: joinNL [
    strL "# Table of contacts.",
    strL "# 1) Contact number: " ++ limitStr (contact_limit radio),
    strL "# 2) Name: up to 16 characters, use '_' instead of space",
    strL "# 3) Call type: Group, Private, All",
    strL "# 4) Call ID: 1...16777215",
    strL "# 5) Call receive tone: -, +"]

/-- `GrouplistTable.docs()`. -/
def grouplistDocs (radio : Radio) : PyStr :=
  '\n' :: joinNL [
    strL "# Table of group lists.",
    strL "# 1) Group list number: " ++ limitStr (grouplist_limit radio),
    strL "# 2) Name: up to 16 characters, use '_' instead of space",
    strL "# 3) List of contacts: numbers and ranges (N-M) separated by comma"]

/-- `Table.header()` for the analog table: the field names formatted
into their own slots (strings, hence left-justified). -/
def analogHeader : PyStr :=
  padTo 6 (strL "Analog") ++ sp ++ padTo 16 (strL "Name") ++ sp
    ++ padTo 8 (strL "Receive") ++ sp ++ padTo 8 (strL "Transmit") ++ sp
    ++ padTo 5 (strL "Power") ++ sp ++ padTo 4 (strL "Scan") ++ sp
    ++ padTo 3 (strL "TOT") ++ sp ++ padTo 2 (strL "RO") ++ sp
    ++ padTo 5 (strL "Admit") ++ sp ++ padTo 7 (strL "Squelch") ++ sp
    ++ padTo 6 (strL "RxTone") ++ sp ++ padTo 6 (strL "TxTone") ++ sp
    ++ strL "Width"

/-- `Table.header()` for the digital table. -/
def digitalHeader : PyStr :=
  padTo 7 (strL "Digital") ++ sp ++ padTo 16 (strL "Name") ++ sp
    ++ padTo 8 (strL "Receive") ++ sp ++ padTo 8 (strL "Transmit") ++ sp
    ++ padTo 5 (strL "Power") ++ sp ++ padTo 4 (strL "Scan") ++ sp
    ++ padTo 3 (strL "TOT") ++ sp ++ padTo 2 (strL "RO") ++ sp
    ++ padTo 5 (strL "Admit") ++ sp ++ padTo 5 (strL "Color") ++ sp
    ++ padTo 4 (strL "Slot") ++ sp ++ padTo 4 (strL "RxGL") ++ sp
    ++ strL "TxContact"

/-- `Table.header()` for the zone table. -/
def zoneHeader : PyStr :=
  padTo 4 (strL "Zone") ++ sp ++ padTo 16 (strL "Name") ++ sp ++ strL "Channels"

/-- `Table.header()` for the scan list table. -/
def scanlistHeader : PyStr :=
  padTo 8 (strL "Scanlist") ++ sp ++ padTo 16 (strL "Name") ++ sp
    ++ padTo 4 (strL "PCh1") ++ sp ++ padTo 4 (strL "PCh2") ++ sp
    ++ padTo 4 (strL "TxCh") ++ sp ++ strL "Channels"

/-- `Table.header()` for the contacts table. -/
def contactHeader : PyStr :=
  padTo 8 (strL "Contact") ++ sp ++ padTo 16 (strL "Name") ++ sp
    ++ padTo 7 (strL "Type") ++ sp ++ padTo 8 (strL "ID") ++ sp ++ strL "RxTone"

/-- `Table.header()` for the group list table. -/
def grouplistHeader : PyStr :=
  padTo 10 (strL "Grouplist") ++ sp ++ padTo 16 (strL "Name") ++ sp ++ strL "Contacts"

/-! ## Template parsing (`DmrConfigTemplate`) and document assembly -/

/-- The parsed template: header lines, footer lines, detected radio. -/
structure DmrConfigTemplate where
  header : List PyStr
  footer : List PyStr
  radio : Option Radio
deriving DecidableEq, Repr

/-- The two error shapes `read_template` can raise: its own
`TemplateError`, and the `ValueError` from `Radio(radio_type)`. -/
inductive TemplateErr where
  | templateError (msg : PyStr)
  | valueError (val : PyStr)
deriving DecidableEq, Repr

/-- The radio-identification marker searched for by
`tline.partition("Radio: ")`. -/
def radioMarker : PyStr := strL "Radio: "

/-- The metadata test applied once a radio has been found:
`"last programmed date" in tline.lower() or "cps software version" in
tline.lower()`. -/
def isMetaLine (line : PyStr) : Bool :=
  containsSub (strL "last programmed date") (lowerStr line) ||
  containsSub (strL "cps software version") (lowerStr line)

/-- One iteration of the `read_template` line loop. -/
def processLine (t : DmrConfigTemplate) (line : PyStr) :
    Except TemplateErr DmrConfigTemplate :=
  match t.radio with
  | none =>
    let t1 : DmrConfigTemplate := { t with header := t.header ++ [line] }
    match splitFirst radioMarker line with
    | some pr =>
      match radioFromValue pr.2 with
      | some r => .ok { t1 with radio := some r }
      | none => .error (.valueError pr.2)
    | none => .ok t1
  | some _ =>
    if isMetaLine line then .ok { t with header := t.header ++ [line] }
    else .ok { t with footer := t.footer ++ [line] }

/-- The `read_template` loop over all lines. -/
def processLines (t : DmrConfigTemplate) :
    List PyStr → Except TemplateErr DmrConfigTemplate
  | [] => .ok t
  | l :: rest =>
    match processLine t l with
    | .error e => .error e
    | .ok t1 => processLines t1 rest

/-- `DmrConfigTemplate.read_template(template)`, over the template's
lines (`template.splitlines()`): scan lines, fail when no radio was
declared, and append one blank header line for the generated content. -/
def read_template (lines : List PyStr) : Except TemplateErr DmrConfigTemplate :=
  match processLines ⟨[], [], none⟩ lines with
  | .error e => .error e
  | .ok t =>
    match t.radio with
    | none => .error (.templateError (strL "template should specify a radio type"))
    | some _ => .ok { t with header := t.header ++ [[]] }

/-- `Dmrconfig_Codeplug.render()`: the tuple of output chunks — one
version comment, then for each table (analog, digital, contact, group
list, scan list, zone) its docs, its column header, and its data rows.
`none` embeds the exceptions rendering can raise. -/
def render (cp : Codeplug) (radio : Radio) : Option (List PyStr) :=
  match analogRows cp radio, digitalRows cp radio, grouplistRows cp radio,
      scanlistRows cp radio, zoneRows cp radio with
  | some ar, some dr, some gr, some sr, some zr =>
    some ([versionLine, analogDocs radio, analogHeader] ++ ar
      ++ [digitalDocs radio, digitalHeader] ++ dr
      ++ [contactDocs radio, contactHeader] ++ contactRows cp radio
      ++ [grouplistDocs radio, grouplistHeader] ++ gr
      ++ [scanlistDocs radio, scanlistHeader] ++ sr
      ++ [zoneDocs radio, zoneHeader] ++ zr)
  | _, _, _, _, _ => none

/-- `Dmrconfig_Codeplug.render_template()`:
`"\n".join(header + render() + footer)`. -/
def render_template (t : DmrConfigTemplate) (cp : Codeplug) (radio : Radio) :
    Option PyStr :=
  (render cp radio).map (fun lines => joinNL (t.header ++ lines ++ t.footer))

theorem foldl_rangeLoopStep_eq_extendTok (rest : List Int) :
    ∀ (done : List RangeTok) (lo prev : Int), lo ≤ prev →
      rest.foldl rangeLoopStep (done ++ [mkTok lo prev]) =
        done ++ extendTok lo prev rest := by
  induction rest with
  | nil => intro done lo prev _; simp [extendTok]
  | cons i rest ih =>
    intro done lo prev hle
    have hlast : (done ++ [mkTok lo prev]).getLast? = some (mkTok lo prev) := by
      simp [List.getLast?_append]
    have hdrop : (done ++ [mkTok lo prev]).dropLast = done := by
      simp [List.dropLast_append_of_ne_nil]
    have hunpack :
        (match mkTok lo prev with
          | RangeTok.single p => ((p, p) : Int × Int)
          | RangeTok.pair l p => (l, p)) = (lo, prev) := by
      by_cases h : lo = prev <;> simp [mkTok, h]
    simp only [List.foldl_cons, rangeLoopStep, hlast, hunpack]
    by_cases hc : prev + 1 = i
    · have hlo : lo ≤ i := by omega
      have hne : lo ≠ i := by omega
      rw [if_pos hc, hdrop]
      have : RangeTok.pair lo i = mkTok lo i := by simp [mkTok, hne]
      rw [this, ih done lo i hlo]
      simp [extendTok, hc]
    · rw [if_neg hc]
      have : done ++ [mkTok lo prev] ++ [RangeTok.single i] =
          (done ++ [mkTok lo prev]) ++ [mkTok i i] := by simp [mkTok]
      rw [this, ih (done ++ [mkTok lo prev]) i i le_rfl]
      simp [extendTok, hc]

theorem range_tuples_of_indices_eq_rec (l : List Int) :
    range_tuples_of_indices l = rangeTuplesRec l := by
  cases l with
  | nil => rfl
  | cons i rest =>
    show (i :: rest).foldl rangeLoopStep [] = extendTok i i rest
    have h1 : rangeLoopStep [] i = [mkTok i i] := by simp [rangeLoopStep, mkTok]
    simp only [List.foldl_cons, h1]
    have h2 := foldl_rangeLoopStep_eq_extendTok rest [] i i le_rfl
    simpa using h2

theorem intRange_self (a : Int) : intRange a a = [a] := by
  have : ((a + 1 - a).toNat) = 1 := by omega
  simp [intRange, this, intRangeGo]

theorem intRangeGo_succ : ∀ (n : Nat) (a : Int),
    intRangeGo (n + 1) a = intRangeGo n a ++ [a + n] := by
  intro n
  induction n with
  | zero => intro a; simp [intRangeGo]
  | succ m ihm =>
    intro a
    have h1 : intRangeGo (m + 1 + 1) a = a :: intRangeGo (m + 1) (a + 1) := rfl
    have h2 : intRangeGo (m + 1) a = a :: intRangeGo m (a + 1) := rfl
    rw [h1, h2, ihm (a + 1)]
    have h3 : a + 1 + (m : Int) = a + ((m + 1 : Nat) : Int) := by push_cast; ring
    rw [List.cons_append, h3]

theorem intRange_snoc (lo prev : Int) (h : lo ≤ prev + 1) :
    intRange lo (prev + 1) = intRange lo prev ++ [prev + 1] := by
  unfold intRange
  have hn : (prev + 1 + 1 - lo).toNat = (prev + 1 - lo).toNat + 1 := by omega
  rw [hn, intRangeGo_succ]
  congr 2
  omega

theorem expandTok_mkTok (lo prev : Int) (h : lo ≤ prev) :
    expandTok (mkTok lo prev) = intRange lo prev := by
  by_cases he : lo = prev
  · subst he; simp [mkTok, expandTok, intRange_self]
  · simp [mkTok, he, expandTok]

theorem expandAll_extendTok (rest : List Int) :
    ∀ lo prev : Int, lo ≤ prev →
      expandAll (extendTok lo prev rest) = intRange lo prev ++ rest := by
  induction rest with
  | nil =>
    intro lo prev h
    simp [extendTok, expandAll, expandTok_mkTok lo prev h]
  | cons i rest ih =>
    intro lo prev h
    by_cases hc : prev + 1 = i
    · have hle : lo ≤ i := by omega
      simp only [extendTok, if_pos hc]
      rw [ih lo i hle, ← hc, intRange_snoc lo prev (by omega)]
      simp
    · simp only [extendTok, if_neg hc]
      show expandTok (mkTok lo prev) ++ expandAll (extendTok i i rest) = _
      rw [expandTok_mkTok lo prev h, ih i i le_rfl, intRange_self]
      simp

/-- Round-trip: expanding the compressed form of any index list gives
back the list. -/
theorem expandAll_range_tuples (l : List Int) :
    expandAll (range_tuples_of_indices l) = l := by
  rw [range_tuples_of_indices_eq_rec]
  cases l with
  | nil => rfl
  | cons i rest =>
    show expandAll (extendTok i i rest) = i :: rest
    rw [expandAll_extendTok rest i i le_rfl, intRange_self]
    simp

theorem breaks_append (b : List Int) :
    ∀ a : List Int, breaks (a ++ b) ≤ breaks a + breaks b + 1 := by
  intro a
  induction a with
  | nil => simp [breaks]
  | cons x rest ih =>
    cases rest with
    | nil =>
      cases b with
      | nil => simp [breaks]
      | cons y r =>
        show breaks (x :: y :: r) ≤ breaks [x] + breaks (y :: r) + 1
        simp only [breaks]
        split <;> omega
    | cons y r =>
      show breaks (x :: y :: (r ++ b)) ≤ breaks (x :: y :: r) + breaks b + 1
      have h1 : breaks (x :: y :: (r ++ b)) =
          (if x + 1 = y then 0 else 1) + breaks (y :: (r ++ b)) := rfl
      have h2 : breaks (x :: y :: r) =
          (if x + 1 = y then 0 else 1) + breaks (y :: r) := rfl
      have h3 : breaks ((y :: r) ++ b) ≤ breaks (y :: r) + breaks b + 1 := ih
      rw [h1, h2]
      have : breaks (y :: (r ++ b)) = breaks ((y :: r) ++ b) := rfl
      omega

theorem breaks_intRangeGo : ∀ (n : Nat) (a : Int), breaks (intRangeGo n a) = 0 := by
  intro n
  induction n with
  | zero => intro a; rfl
  | succ m ih =>
    intro a
    cases m with
    | zero => rfl
    | succ k =>
      have h1 : intRangeGo (k + 1 + 1) a = a :: intRangeGo (k + 1) (a + 1) := rfl
      have h2 : intRangeGo (k + 1) (a + 1) = (a + 1) :: intRangeGo k (a + 1 + 1) := rfl
      rw [h1, h2]
      have h3 : breaks (a :: (a + 1) :: intRangeGo k (a + 1 + 1)) =
          (if a + 1 = a + 1 then 0 else 1) +
            breaks ((a + 1) :: intRangeGo k (a + 1 + 1)) := rfl
      rw [h3, ← h2, ih (a + 1)]
      simp

theorem breaks_expandTok (tok : RangeTok) : breaks (expandTok tok) = 0 := by
  cases tok with
  | single n => rfl
  | pair lo hi => exact breaks_intRangeGo _ _

/-- Any token sequence that expands to a nonempty list `l` has at least
`breaks l + 1` tokens. -/
theorem tokens_lower_bound :
    ∀ (t : List RangeTok) (l : List Int), expandAll t = l → l ≠ [] →
      breaks l + 1 ≤ t.length := by
  intro t
  induction t with
  | nil =>
    intro l hexp hne
    exact absurd hexp.symm hne
  | cons tok rest ih =>
    intro l hexp hne
    have hsplit : l = expandTok tok ++ expandAll rest := by
      rw [← hexp]; rfl
    by_cases hrest : expandAll rest = []
    · have : l = expandTok tok := by rw [hsplit, hrest, List.append_nil]
      rw [this, breaks_expandTok]
      simp
    · have hb := ih (expandAll rest) rfl hrest
      have h1 : breaks l ≤ breaks (expandTok tok) + breaks (expandAll rest) + 1 := by
        rw [hsplit]; exact breaks_append (expandAll rest) (expandTok tok)
      rw [breaks_expandTok] at h1
      simp only [List.length_cons]
      omega

theorem length_extendTok :
    ∀ (rest : List Int) (lo prev : Int),
      (extendTok lo prev rest).length = breaks (prev :: rest) + 1 := by
  intro rest
  induction rest with
  | nil => intro lo prev; rfl
  | cons i r ih =>
    intro lo prev
    have hb : breaks (prev :: i :: r) =
        (if prev + 1 = i then 0 else 1) + breaks (i :: r) := rfl
    by_cases hc : prev + 1 = i
    · simp only [extendTok, if_pos hc, hb, ih]
      omega
    · simp only [extendTok, if_neg hc, hb, List.length_cons, ih]
      omega

/-- The greedy compression of any index list attains the minimum token
count among all tokenizations that expand back to that list. -/
theorem range_tuples_minimal (l : List Int) (t : List RangeTok)
    (hexp : expandAll t = l) :
    (range_tuples_of_indices l).length ≤ t.length := by
  cases l with
  | nil => simp [range_tuples_of_indices]
  | cons i rest =>
    have hlen : (range_tuples_of_indices (i :: rest)).length =
        breaks (i :: rest) + 1 := by
      rw [range_tuples_of_indices_eq_rec]
      exact length_extendTok rest i i
    rw [hlen]
    exact tokens_lower_bound t (i :: rest) hexp (by simp)

theorem lookupAll_some : ∀ l : List Int, lookupAll (fun i => some i) l = some l := by
  intro l
  induction l with
  | nil => rfl
  | cons x rest ih => simp [lookupAll, ih]

theorem items_to_range_tuples_id (l : List Int) :
    items_to_range_tuples (fun i => some i) l = some (range_tuples_of_indices l) := by
  unfold items_to_range_tuples
  rw [lookupAll_some]
  rfl

/-- A codeplug whose 65 scan lists exceed the GD-77's scan list limit
`(1, 64)`; every other collection is empty. -/
def overLimitCodeplug : Codeplug :=
  ⟨[], [], [], (List.range 65).map (fun _ => ⟨strL "s", strL "SL", []⟩), []⟩

/-- Whether a channel is the analog variant. -/
def isAnalogCh : Channel → Bool
  | Channel.analog _ => true
  | Channel.digital _ => false

/-- Whether a channel is a digital variant declaring a talkgroup (the
digital table's filter). -/
def isDigitalTgCh : Channel → Bool
  | Channel.digital d => d.talkgroup.isSome
  | Channel.analog _ => false

/-! ## Index resolution lemmas -/

theorem length_enumFromIx {α : Type} :
    ∀ (l : List α) (s : Nat), (enumFromIx s l).length = l.length := by
  intro l
  induction l with
  | nil => intro s; rfl
  | cons x rest ih => intro s; simp [enumFromIx, ih]

theorem filterMap_index_nil {α β : Type} [DecidableEq β]
    (key : α → β) (offset : Int) (b : β) :
    ∀ (l : List α) (s : Nat), (∀ x ∈ l, key x ≠ b) →
      (enumFromIx s l).filterMap
        (fun p => if key p.2 = b then some ((p.1 : Int) + offset) else none) = [] := by
  intro l
  induction l with
  | nil => intro s _; rfl
  | cons x rest ih =>
    intro s h
    have hx : key x ≠ b := h x (by simp)
    simp only [enumFromIx, List.filterMap_cons, if_neg hx]
    exact ih (s + 1) (fun y hy => h y (by simp [hy]))

theorem items_by_index_core {α β : Type} [DecidableEq β]
    (key : α → β) (offset : Int) :
    ∀ (l : List α) (s ix : Nat) (x : α), (l.map key).Nodup →
      l.get? ix = some x →
      ((enumFromIx s l).filterMap
        (fun p => if key p.2 = key x then some ((p.1 : Int) + offset) else none)).getLast?
        = some (((s + ix : Nat) : Int) + offset) := by
  intro l
  induction l with
  | nil => intro s ix x _ hget; simp at hget
  | cons x0 rest ih =>
    intro s ix x hnd hget
    simp only [List.map_cons, List.nodup_cons] at hnd
    obtain ⟨hx0, hndr⟩ := hnd
    cases ix with
    | zero =>
      obtain rfl : x0 = x := by simpa using hget
      have hrest : ∀ y ∈ rest, key y ≠ key x0 := by
        intro y hy hk
        exact hx0 (hk ▸ List.mem_map_of_mem key hy)
      simp only [enumFromIx, List.filterMap_cons, if_pos rfl]
      rw [filterMap_index_nil key offset (key x0) rest (s + 1) hrest]
      simp
    | succ k =>
      have hget2 : rest.get? k = some x := by simpa using hget
      have hmem : x ∈ rest := List.get?_mem hget2
      have hne : key x0 ≠ key x := by
        intro hk
        exact hx0 (hk ▸ List.mem_map_of_mem key hmem)
      simp only [enumFromIx, List.filterMap_cons, if_neg hne]
      rw [ih (s + 1) k x hndr hget2]
      congr 2
      push_cast
      ring

/-- `items_by_index` under distinct keys: the entity at position `ix`
resolves to `ix + offset`. -/
theorem items_by_index_get {α β : Type} [DecidableEq β]
    (l : List α) (key : α → β) (offset : Int) (hnd : (l.map key).Nodup)
    (ix : Nat) (x : α) (hget : l.get? ix = some x) :
    items_by_index l key offset (key x) = some ((ix : Int) + offset) := by
  have := items_by_index_core key offset l 0 ix x hnd hget
  simpa [items_by_index] using this

theorem length_collectSome {α : Type} :
    ∀ (xs : List (Option α)) (ys : List α), collectSome xs = some ys →
      ys.length = xs.length := by
  intro xs
  induction xs with
  | nil =>
    intro ys h
    obtain rfl : [] = ys := by simpa [collectSome] using h
    rfl
  | cons o rest ih =>
    intro ys h
    cases o with
    | none => simp [collectSome] at h
    | some x =>
      simp only [collectSome] at h
      match hrec : collectSome rest with
      | none => rw [hrec] at h; simp at h
      | some zs =>
        rw [hrec] at h
        obtain rfl : x :: zs = ys := by simpa using h
        simp [ih zs hrec]

theorem length_filterMap_enumFromIx {α γ : Type} (F : Nat × α → Option γ)
    (q : α → Bool) (hF : ∀ i x, (F (i, x)).isSome = q x) :
    ∀ (l : List α) (s : Nat), ((enumFromIx s l).filterMap F).length = l.countP q := by
  intro l
  induction l with
  | nil => intro s; rfl
  | cons x rest ih =>
    intro s
    simp only [enumFromIx, List.filterMap_cons]
    have hq := hF s x
    cases hFx : F (s, x) with
    | none =>
      rw [hFx] at hq
      simp only [Option.isSome_none] at hq
      rw [List.countP_cons, ← hq]
      simp [ih (s + 1)]
    | some y =>
      rw [hFx] at hq
      simp only [Option.isSome_some] at hq
      rw [List.countP_cons, ← hq]
      simp [ih (s + 1)]

/-! ## Name Normalizer lemmas -/

theorem leadsWith_drop : ∀ (sep s : PyStr), leadsWith sep s = true →
    s = sep ++ s.drop sep.length := by
  intro sep
  induction sep with
  | nil => intro s _; simp
  | cons p ps ih =>
    intro s h
    cases s with
    | nil => simp [leadsWith] at h
    | cons c cs =>
      simp only [leadsWith, Bool.and_eq_true, decide_eq_true_eq] at h
      obtain ⟨rfl, h2⟩ := h
      have := ih cs h2
      simp only [List.length_cons, List.drop_succ_cons, List.cons_append]
      exact congrArg (p :: ·) this

theorem leadsWith_of_append : ∀ (sep x : PyStr), leadsWith sep (sep ++ x) = true := by
  intro sep
  induction sep with
  | nil => intro x; rfl
  | cons p ps ih => intro x; simp [leadsWith, ih x]

theorem upper_not_lower (c : Char) (h : isUpperCh c = true) : isLowerCh c = false := by
  simp only [isUpperCh, Bool.and_eq_true, decide_eq_true_eq] at h
  rw [isLowerCh]
  by_contra hb
  simp only [Bool.not_eq_false, Bool.and_eq_true, decide_eq_true_eq] at hb
  have : 'a' ≤ 'Z' := le_trans hb.1 h.2
  exact absurd this (by decide)

theorem space_cases (c : Char) (h : isSpaceCh c = true) :
    c = ' ' ∨ c = '\t' ∨ c = '\n' ∨ c = '\r' ∨ c = Char.ofNat 11 ∨ c = Char.ofNat 12 := by
  simp only [isSpaceCh, Bool.or_eq_true, decide_eq_true_eq] at h
  tauto

theorem space_not_upper (c : Char) (h : isSpaceCh c = true) : isUpperCh c = false := by
  rcases space_cases c h with rfl | rfl | rfl | rfl | rfl | rfl <;> decide

theorem space_not_lower (c : Char) (h : isSpaceCh c = true) : isLowerCh c = false := by
  rcases space_cases c h with rfl | rfl | rfl | rfl | rfl | rfl <;> decide

theorem digit12_not_lower (c : Char) (h : c = '1' ∨ c = '2') : isLowerCh c = false := by
  rcases h with rfl | rfl <;> decide

theorem getLast?_decomp {α : Type} :
    ∀ (l : List α) (a : α), l.getLast? = some a → l = l.dropLast ++ [a] := by
  intro l
  induction l with
  | nil => intro a h; simp at h
  | cons x rest ih =>
    intro a h
    cases rest with
    | nil =>
      obtain rfl : x = a := by simpa using h
      rfl
    | cons y t =>
      rw [List.getLast?_cons_cons] at h
      have := ih a h
      calc x :: y :: t = x :: ((y :: t).dropLast ++ [a]) := by rw [← this]
        _ = (x :: y :: t).dropLast ++ [a] := by simp [List.dropLast_cons₂]

theorem getLast?_none_eq_nil {α : Type} :
    ∀ l : List α, l.getLast? = none → l = [] := by
  intro l
  cases l with
  | nil => intro _; rfl
  | cons x rest =>
    intro h
    exfalso
    cases hr : (x :: rest).getLast? with
    | some a => rw [hr] at h; simp at h
    | none =>
      have : ∃ a, (x :: rest).getLast? = some a := by
        clear h hr
        induction rest generalizing x with
        | nil => exact ⟨x, rfl⟩
        | cons y t ih =>
          obtain ⟨a, ha⟩ := ih y
          exact ⟨a, by rw [List.getLast?_cons_cons]; exact ha⟩
      obtain ⟨a, ha⟩ := this
      rw [ha] at hr
      simp at hr

theorem takeWhile_append_all {α : Type} (p : α → Bool) :
    ∀ (l1 l2 : List α), (∀ c ∈ l1, p c = true) →
      (l1 ++ l2).takeWhile p = l1 ++ l2.takeWhile p := by
  intro l1
  induction l1 with
  | nil => intro l2 _; rfl
  | cons x rest ih =>
    intro l2 h
    have hx : p x = true := h x (by simp)
    simp only [List.cons_append, List.takeWhile_cons, hx]
    rw [ih l2 (fun c hc => h c (by simp [hc]))]
    simp

theorem takeWhile_cons_false {α : Type} (p : α → Bool) (x : α) (l : List α)
    (h : p x = false) : (x :: l).takeWhile p = [] := by
  simp [List.takeWhile_cons, h]

theorem upperRun_append (x : PyStr) (w : Char) (run : PyStr)
    (hupper : ∀ c ∈ run, isUpperCh c = true) (hw : isUpperCh w = false) :
    upperRun (x ++ w :: run) = run := by
  unfold upperRun
  rw [List.reverse_append, List.reverse_cons, List.append_assoc]
  rw [takeWhile_append_all isUpperCh run.reverse ([w] ++ x.reverse)
    (fun c hc => hupper c (List.mem_reverse.mp hc))]
  rw [show ([w] ++ x.reverse : PyStr) = w :: x.reverse from rfl,
    takeWhile_cons_false isUpperCh w x.reverse hw]
  simp

theorem upperRun_decomp (s : PyStr) :
    s = s.take (s.length - (upperRun s).length) ++ upperRun s ∧
    (∀ c ∈ upperRun s, isUpperCh c = true) := by
  have hsplit : (s.reverse.dropWhile isUpperCh).reverse ++ upperRun s = s := by
    unfold upperRun
    rw [← List.reverse_append, List.takeWhile_append_dropWhile, List.reverse_reverse]
  constructor
  · generalize (s.reverse.dropWhile isUpperCh).reverse = a at hsplit
    generalize hb : upperRun s = b at hsplit ⊢
    rw [← hsplit]
    have hl2 : (a ++ b).length - b.length = a.length := by simp
    rw [hl2, List.take_left]
  · intro c hc
    unfold upperRun at hc
    rw [List.mem_reverse] at hc
    exact List.mem_takeWhile_imp hc

theorem getLast?_isSome_of_ne_nil {α : Type} :
    ∀ l : List α, l ≠ [] → ∃ a, l.getLast? = some a := by
  intro l
  induction l with
  | nil => intro h; exact absurd rfl h
  | cons x rest ih =>
    intro _
    cases rest with
    | nil => exact ⟨x, rfl⟩
    | cons y tl =>
      obtain ⟨a, ha⟩ := ih (by simp)
      exact ⟨a, by rw [List.getLast?_cons_cons]; exact ha⟩

theorem mem_of_getLast?_eq {α : Type} (l : List α) (a : α)
    (h : l.getLast? = some a) : a ∈ l := by
  rw [getLast?_decomp l a h]
  simp

theorem getLast?_append_right {α : Type} (a b : List α) (hb : b ≠ []) :
    (a ++ b).getLast? = b.getLast? := by
  obtain ⟨x, hx⟩ := getLast?_isSome_of_ne_nil b hb
  rw [hx, getLast?_decomp b x hx, ← List.append_assoc, List.getLast?_concat]

theorem getLast?_drop_ne {α : Type} (p : List α) (k : Nat)
    (h : p.drop k ≠ []) : (p.drop k).getLast? = p.getLast? := by
  conv_rhs => rw [← List.take_append_drop k p]
  rw [getLast?_append_right _ _ h]

theorem lastNotDigitB_drop (p : PyStr) (k : Nat)
    (h : lastNotDigitB p = true) : lastNotDigitB (p.drop k) = true := by
  by_cases hne : p.drop k = []
  · rw [hne]; rfl
  · rw [lastNotDigitB, getLast?_drop_ne p k hne]
    rw [lastNotDigitB] at h
    exact h

theorem lastNotDigitB_cons_ne (c : Char) (l : PyStr) (h : l ≠ []) :
    lastNotDigitB (c :: l) = lastNotDigitB l := by
  rw [lastNotDigitB, lastNotDigitB,
    show (c :: l : PyStr) = [c] ++ l from rfl, getLast?_append_right [c] l h]

theorem lastNotDigitB_append_right (a b : PyStr) (hb : b ≠ []) :
    lastNotDigitB (a ++ b) = lastNotDigitB b := by
  rw [lastNotDigitB, lastNotDigitB, getLast?_append_right a b hb]

/-- With a key ending in a lowercase letter, the replacement scan
leaves a string with no lowercase characters untouched (the key cannot
occur in it). -/
theorem replaceAllGo_id (key val : PyStr) (hkey : 0 < key.length)
    (hklast : ∀ c, key.getLast? = some c → isLowerCh c = true) :
    ∀ (fuel : Nat) (t : PyStr), (∀ c ∈ t, isLowerCh c = false) →
      replaceAllGo key val fuel t = t := by
  intro fuel
  induction fuel with
  | zero => intro t _; rfl
  | succ m ih =>
    intro t hnl
    cases t with
    | nil => rfl
    | cons c rest =>
      rw [replaceAllGo]
      rw [if_neg ?hcond]
      · rw [ih rest (fun x hx => hnl x (by simp [hx]))]
      case hcond =>
        rintro ⟨-, hlead⟩
        have hk : key ≠ [] := by
          intro h; rw [h] at hkey; simp at hkey
        obtain ⟨kc, hkc⟩ := getLast?_isSome_of_ne_nil key hk
        have hlow : isLowerCh kc = true := hklast kc hkc
        have hkeq : key ++ (c :: rest).drop key.length = c :: rest :=
          (leadsWith_drop key (c :: rest) hlead).symm
        have hmem : kc ∈ (c :: rest) := by
          rw [← hkeq]
          exact List.mem_append_left _ (mem_of_getLast?_eq key kc hkc)
        rw [hnl kc hmem] at hlow
        exact absurd hlow (by simp)

theorem replaceAll_id (key val : PyStr) (hkey : 0 < key.length)
    (hklast : ∀ c, key.getLast? = some c → isLowerCh c = true)
    (t : PyStr) (hnl : ∀ c ∈ t, isLowerCh c = false) :
    replaceAll key val t = t :=
  replaceAllGo_id key val hkey hklast t.length t hnl

/-- Occurrence-splitting for the replacement scan: with a key ending
in a lowercase letter and a suffix `t` containing no lowercase
characters, every replacement happens inside the prefix, so the suffix
survives verbatim; moreover, with a nonempty replacement value the
rewritten prefix is empty only if the original was, and a
non-digit-final prefix stays non-digit-final when the value is
non-digit-final. -/
theorem replaceAllGo_split (key val : PyStr) (hkey : 0 < key.length)
    (hklast : ∀ c, key.getLast? = some c → isLowerCh c = true)
    (t : PyStr) (hnl : ∀ c ∈ t, isLowerCh c = false) :
    ∀ (fuel : Nat) (p : PyStr), p.length + t.length ≤ fuel →
      ∃ p2, replaceAllGo key val fuel (p ++ t) = p2 ++ t ∧
        (val ≠ [] → p2 = [] → p = []) ∧
        (val ≠ [] → lastNotDigitB val = true → lastNotDigitB p = true →
          lastNotDigitB p2 = true) := by
  intro fuel
  induction fuel with
  | zero =>
    intro p _
    exact ⟨p, rfl, fun _ h => h, fun _ _ h => h⟩
  | succ m ih =>
    intro p hp
    cases p with
    | nil =>
      refine ⟨[], ?_, fun _ _ => rfl, fun _ _ _ => rfl⟩
      simpa using replaceAllGo_id key val hkey hklast (m + 1) t hnl
    | cons c pr =>
      rw [show ((c :: pr) ++ t : PyStr) = c :: (pr ++ t) from rfl, replaceAllGo]
      by_cases hcond : 0 < key.length ∧ leadsWith key (c :: (pr ++ t)) = true
      · rw [if_pos hcond]
        by_cases hlen : key.length ≤ (c :: pr).length
        · have hdrop : (c :: (pr ++ t)).drop key.length =
              (c :: pr).drop key.length ++ t := by
            rw [show (c :: (pr ++ t) : PyStr) = (c :: pr) ++ t from rfl,
              List.drop_append_eq_append_drop]
            have h0 : key.length - (c :: pr).length = 0 := by omega
            rw [h0]
            rfl
          have hlen2 : ((c :: pr).drop key.length).length + t.length ≤ m := by
            simp only [List.length_drop, List.length_cons]
            simp only [List.length_cons] at hp
            omega
          obtain ⟨p2a, heq, _, hdig2⟩ := ih ((c :: pr).drop key.length) hlen2
          rw [hdrop, heq]
          refine ⟨val ++ p2a, by rw [List.append_assoc], ?_, ?_⟩
          · intro hval hvp
            exact absurd (List.append_eq_nil.mp hvp).1 hval
          · intro hval hvald hpd
            by_cases hp2 : p2a = []
            · rw [hp2, List.append_nil]
              exact hvald
            · rw [lastNotDigitB_append_right val p2a hp2]
              exact hdig2 hval hvald (lastNotDigitB_drop (c :: pr) key.length hpd)
        · -- the key would have to extend past the prefix: its final
          -- (lowercase) character would then lie inside `t`, which has
          -- no lowercase characters.
          exfalso
          obtain ⟨-, hlead⟩ := hcond
          have hk : key ≠ [] := by
            intro h; rw [h] at hkey; simp at hkey
          obtain ⟨kc, hkc⟩ := getLast?_isSome_of_ne_nil key hk
          have hlow : isLowerCh kc = true := hklast kc hkc
          have hkeq : key ++ (c :: (pr ++ t)).drop key.length = c :: (pr ++ t) :=
            (leadsWith_drop key (c :: (pr ++ t)) hlead).symm
          have htk : key = ((c :: pr) ++ t).take key.length := by
            conv_rhs =>
              rw [show ((c :: pr) ++ t : PyStr) = c :: (pr ++ t) from rfl, ← hkeq]
            rw [List.take_left]
          have htk2 : key = (c :: pr) ++ t.take (key.length - (c :: pr).length) := by
            have h1 := @List.take_append_eq_append_take Char (c :: pr) t key.length
            rw [List.take_of_length_le (le_of_not_le hlen)] at h1
            exact htk.trans h1
          have hu : t.take (key.length - (c :: pr).length) ≠ [] := by
            intro h0
            rw [h0, List.append_nil] at htk2
            have hlc := congrArg List.length htk2
            simp only [List.length_cons] at hlc hlen
            omega
          have hkc2 : (t.take (key.length - (c :: pr).length)).getLast? = some kc := by
            rw [← getLast?_append_right ((c : Char) :: pr) _ hu, ← htk2]
            exact hkc
          have hmem : kc ∈ t :=
            List.take_subset _ t (mem_of_getLast?_eq _ kc hkc2)
          rw [hnl kc hmem] at hlow
          exact absurd hlow (by simp)
      · rw [if_neg hcond]
        have hlenp : pr.length + t.length ≤ m := by
          simp only [List.length_cons] at hp
          omega
        obtain ⟨p2a, heq, hnil2, hdig2⟩ := ih pr hlenp
        rw [heq]
        refine ⟨c :: p2a, rfl, ?_, ?_⟩
        · intro _ h; simp at h
        · intro hval hvald hpd
          by_cases hp2 : p2a = []
          · have hpr : pr = [] := hnil2 hval hp2
            rw [hp2]
            rw [hpr] at hpd
            exact hpd
          · rw [lastNotDigitB_cons_ne c p2a hp2]
            by_cases hprn : pr = []
            · exfalso
              rw [hprn] at heq
              have hid := replaceAllGo_id key val hkey hklast m t hnl
              rw [show (([] : PyStr) ++ t) = t from rfl, hid] at heq
              have hl := congrArg List.length heq
              simp at hl
              exact hp2 hl
            · exact hdig2 hval hvald (by rwa [lastNotDigitB_cons_ne c pr hprn] at hpd)

theorem replaceAll_split (key val : PyStr) (hkey : 0 < key.length)
    (hklast : ∀ c, key.getLast? = some c → isLowerCh c = true)
    (t : PyStr) (hnl : ∀ c ∈ t, isLowerCh c = false) (p : PyStr) :
    ∃ p2, replaceAll key val (p ++ t) = p2 ++ t ∧
      (val ≠ [] → p2 = [] → p = []) ∧
      (val ≠ [] → lastNotDigitB val = true → lastNotDigitB p = true →
        lastNotDigitB p2 = true) :=
  replaceAllGo_split key val hkey hklast t hnl (p ++ t).length p (by simp)

/-- The replacement loop also leaves a lowercase-free suffix intact
and cannot introduce a trailing digit before it. -/
theorem applyReplacements_split :
    ∀ (pairs : List (PyStr × PyStr)),
      (∀ kv ∈ pairs, 0 < kv.1.length ∧
        (∀ c, kv.1.getLast? = some c → isLowerCh c = true) ∧
        kv.2 ≠ [] ∧ lastNotDigitB kv.2 = true) →
      ∀ (t : PyStr), (∀ c ∈ t, isLowerCh c = false) →
      ∀ (p : PyStr) (L : Nat),
        ∃ p2, applyReplacements pairs (p ++ t) L = p2 ++ t ∧
          (lastNotDigitB p = true → lastNotDigitB p2 = true) := by
  intro pairs
  induction pairs with
  | nil =>
    intro _ t _ p L
    exact ⟨p, rfl, fun h => h⟩
  | cons kv rest ih =>
    obtain ⟨k, v⟩ := kv
    intro hok t hnl p L
    obtain ⟨hk1, hk2, hk3, hk4⟩ := hok (k, v) (by simp)
    rw [applyReplacements]
    by_cases hle : (p ++ t).length ≤ L
    · rw [if_pos hle]
      exact ⟨p, rfl, fun h => h⟩
    · rw [if_neg hle]
      obtain ⟨p2, heq, -, hdig⟩ :=
        replaceAll_split k v hk1 hk2 t hnl p
      rw [heq]
      obtain ⟨p3, heq3, himp3⟩ := ih (fun x hx => hok x (by simp [hx])) t hnl p2 L
      exact ⟨p3, heq3, fun h => himp3 (hdig hk3 hk4 h)⟩

/-- Unfolding of the truncation tail of `channel_name` when the
post-replacement string splits as `p2 ++ t` and the tail-code search
finds exactly `t`. -/
theorem channel_name_tail (s t p2 : PyStr) (L : Nat)
    (heq : applyReplacements talkgroupReplacements s L = p2 ++ t)
    (ht2 : tailCode (p2 ++ t) = some t)
    (hL : t.length + 1 < L) :
    (channel_name s L).drop ((channel_name s L).length - t.length) = t := by
  have hdrop : (p2 ++ t).drop ((p2 ++ t).length - t.length) = t := by
    have h1 : (p2 ++ t).length - t.length = p2.length := by simp
    rw [h1, List.drop_left]
  rw [channel_name]
  simp only [heq, ht2]
  by_cases hlen : (p2 ++ t).length > L
  · rw [if_pos hlen, if_pos hL]
    have hinner : (p2 ++ t).length - ((p2 ++ t).length - L + t.length) =
        L - t.length := by
      simp only [List.length_append] at hlen ⊢
      omega
    rw [hinner, hdrop]
    have hAlen : ((p2 ++ t).take (L - t.length)).length = L - t.length := by
      rw [List.length_take]
      simp only [List.length_append] at hlen ⊢
      omega
    have hslen : (((p2 ++ t).take (L - t.length)) ++ t).length = L := by
      simp only [List.length_append, hAlen]
      omega
    rw [List.take_of_length_le (le_of_eq hslen)]
    have hdlen : (((p2 ++ t).take (L - t.length)) ++ t).length - t.length =
        ((p2 ++ t).take (L - t.length)).length := by
      simp only [List.length_append, hAlen]
      omega
    rw [hdlen, List.drop_left]
  · rw [if_neg hlen]
    have hle : (p2 ++ t).length ≤ L := by omega
    rw [List.take_of_length_le hle]
    exact hdrop

theorem tailCode_digit (p : PyStr) (d w : Char) (run : PyStr)
    (hrun : run ≠ []) (hupper : ∀ c ∈ run, isUpperCh c = true)
    (hw : isSpaceCh w = true) (hd : d = '1' ∨ d = '2') :
    tailCode (p ++ d :: w :: run) = some (d :: w :: run) := by
  have hur : upperRun (p ++ d :: w :: run) = run := by
    rw [show p ++ d :: w :: run = (p ++ [d]) ++ w :: run from by simp]
    exact upperRun_append (p ++ [d]) w run hupper (space_not_upper w hw)
  have hlen : (p ++ d :: w :: run).length - run.length = (p ++ [d, w]).length := by
    simp
    omega
  have htake : (p ++ d :: w :: run).take ((p ++ [d, w]).length) = p ++ [d, w] := by
    rw [show p ++ d :: w :: run = (p ++ [d, w]) ++ run from by simp]
    rw [List.take_left]
  rw [tailCode]
  simp only [hur, hlen, htake]
  rw [if_neg (by simp [List.isEmpty_iff, hrun])]
  rw [show (p ++ [d, w] : PyStr) = (p ++ [d]) ++ [w] from by simp]
  rw [List.getLast?_concat, List.dropLast_concat, List.getLast?_concat]
  simp only [hw, if_true]
  rw [if_pos hd]

theorem tailCode_nodigit (p : PyStr) (w : Char) (run : PyStr)
    (hrun : run ≠ []) (hupper : ∀ c ∈ run, isUpperCh c = true)
    (hw : isSpaceCh w = true) (hp : lastNotDigitB p = true) :
    tailCode (p ++ w :: run) = some (w :: run) := by
  have hur : upperRun (p ++ w :: run) = run :=
    upperRun_append p w run hupper (space_not_upper w hw)
  have hlen : (p ++ w :: run).length - run.length = (p ++ [w]).length := by
    simp
    omega
  have htake : (p ++ w :: run).take ((p ++ [w]).length) = p ++ [w] := by
    rw [show p ++ w :: run = (p ++ [w]) ++ run from by simp]
    rw [List.take_left]
  rw [tailCode]
  simp only [hur, hlen, htake]
  rw [if_neg (by simp [List.isEmpty_iff, hrun])]
  rw [List.getLast?_concat, List.dropLast_concat]
  simp only [hw, if_true]
  cases hl : p.getLast? with
  | none => rfl
  | some c =>
    have hc : ¬(c = '1' ∨ c = '2') := by
      rw [lastNotDigitB, hl] at hp
      simp only [Bool.not_eq_true', Bool.or_eq_false_iff, decide_eq_false_iff_not] at hp
      tauto
    simp [hl, hc]

theorem tailCode_inversion (s t : PyStr) (ht : tailCode s = some t) :
    ∃ (p run : PyStr) (w : Char),
      run ≠ [] ∧ (∀ c ∈ run, isUpperCh c = true) ∧ isSpaceCh w = true ∧
      ((∃ d, (d = '1' ∨ d = '2') ∧ t = d :: w :: run ∧ s = p ++ t) ∨
       (t = w :: run ∧ s = p ++ t ∧ lastNotDigitB p = true)) := by
  simp only [tailCode] at ht
  obtain ⟨hsplit, hupper⟩ := upperRun_decomp s
  split at ht
  · exact absurd ht (by simp)
  · rename_i hrun
    have hrunne : upperRun s ≠ [] := by
      simpa [List.isEmpty_iff] using hrun
    split at ht
    · exact absurd ht (by simp)
    · rename_i w hlast
      split at ht
      · rename_i hsp
        split at ht
        · rename_i d hd2
          split at ht
          · rename_i hdig
            obtain rfl : d :: w :: upperRun s = t := by simpa using ht
            have hrest := getLast?_decomp _ w hlast
            have hdl := getLast?_decomp _ d hd2
            refine ⟨(s.take (s.length - (upperRun s).length)).dropLast.dropLast,
              upperRun s, w, hrunne, hupper, hsp, Or.inl ⟨d, hdig, rfl, ?_⟩⟩
            conv_lhs => rw [hsplit, hrest, hdl]
            simp
          · rename_i hdig
            obtain rfl : w :: upperRun s = t := by simpa using ht
            have hrest := getLast?_decomp _ w hlast
            refine ⟨(s.take (s.length - (upperRun s).length)).dropLast,
              upperRun s, w, hrunne, hupper, hsp, Or.inr ⟨rfl, ?_, ?_⟩⟩
            · conv_lhs => rw [hsplit, hrest]
              simp
            · rw [lastNotDigitB, hd2]
              simp only [Bool.not_eq_true', Bool.or_eq_false_iff, decide_eq_false_iff_not]
              tauto
        · rename_i hd2
          obtain rfl : w :: upperRun s = t := by simpa using ht
          have hrest := getLast?_decomp _ w hlast
          have hnil := getLast?_none_eq_nil _ hd2
          refine ⟨[], upperRun s, w, hrunne, hupper, hsp, Or.inr ⟨rfl, ?_, rfl⟩⟩
          conv_lhs => rw [hsplit, hrest, hnil]
          simp
      · exact absurd ht (by simp)

/-! ## Template parser lemmas -/

theorem splitFirst_sound (sep : PyStr) :
    ∀ (s b a : PyStr), splitFirst sep s = some (b, a) → s = b ++ sep ++ a := by
  intro s
  induction s with
  | nil => intro b a h; simp [splitFirst] at h
  | cons c cs ih =>
    intro b a h
    by_cases hl : leadsWith sep (c :: cs) = true
    · rw [splitFirst, if_pos hl] at h
      obtain ⟨rfl, rfl⟩ : ([] = b ∧ (c :: cs).drop sep.length = a) := by
        simpa using h
      simpa using leadsWith_drop sep (c :: cs) hl
    · rw [splitFirst, if_neg hl] at h
      match hrec : splitFirst sep cs with
      | none => rw [hrec] at h; simp at h
      | some (b1, a1) =>
        rw [hrec] at h
        obtain ⟨rfl, rfl⟩ : (c :: b1 = b ∧ a1 = a) := by simpa using h
        have := ih b1 a1 hrec
        simp [this]

theorem splitFirst_first (sep : PyStr) :
    ∀ (s b a : PyStr), splitFirst sep s = some (b, a) →
      ∀ (b2 a2 : PyStr), s = b2 ++ sep ++ a2 → b.length ≤ b2.length := by
  intro s
  induction s with
  | nil => intro b a h; simp [splitFirst] at h
  | cons c cs ih =>
    intro b a h b2 a2 heq
    by_cases hl : leadsWith sep (c :: cs) = true
    · rw [splitFirst, if_pos hl] at h
      obtain ⟨rfl, rfl⟩ : ([] = b ∧ (c :: cs).drop sep.length = a) := by
        simpa using h
      simp
    · rw [splitFirst, if_neg hl] at h
      match hrec : splitFirst sep cs with
      | none => rw [hrec] at h; simp at h
      | some (b1, a1) =>
        rw [hrec] at h
        obtain ⟨rfl, rfl⟩ : (c :: b1 = b ∧ a1 = a) := by simpa using h
        cases b2 with
        | nil =>
          exfalso
          apply hl
          simp only [List.nil_append] at heq
          rw [heq]
          exact leadsWith_of_append sep a2
        | cons c2 b2t =>
          simp only [List.cons_append, List.cons.injEq] at heq
          obtain ⟨rfl, heq2⟩ := heq
          have := ih b1 a1 hrec b2t a2 heq2
          simpa using this

theorem template_eta (t : DmrConfigTemplate) (h : t.radio = none) :
    t = ⟨t.header, t.footer, none⟩ := by
  cases t
  simp only at h
  simp [h]

theorem processLines_append :
    ∀ (xs ys : List PyStr) (t : DmrConfigTemplate),
      processLines t (xs ++ ys) =
        match processLines t xs with
        | .error e => .error e
        | .ok t1 => processLines t1 ys := by
  intro xs
  induction xs with
  | nil => intro ys t; rfl
  | cons x xt ih =>
    intro ys t
    simp only [List.cons_append, processLines]
    cases hp : processLine t x with
    | error e => rfl
    | ok t1 => exact ih ys t1

theorem processLines_seeking :
    ∀ (lines : List PyStr) (t : DmrConfigTemplate), t.radio = none →
      (∀ l ∈ lines, containsSub radioMarker l = false) →
      processLines t lines = .ok ⟨t.header ++ lines, t.footer, none⟩ := by
  intro lines
  induction lines with
  | nil =>
    intro t ht _
    rw [List.append_nil]
    show Except.ok t = _
    rw [template_eta t ht]
  | cons l rest ih =>
    intro t ht hmk
    have hnofind : splitFirst radioMarker l = none := by
      have := hmk l (by simp)
      unfold containsSub at this
      exact Option.not_isSome_iff_eq_none.mp (by simp [this])
    show (match processLine t l with
          | Except.error e => Except.error e
          | Except.ok t1 => processLines t1 rest) = _
    rw [processLine, ht]
    simp only [hnofind]
    have := ih ⟨t.header ++ [l], t.footer, none⟩ rfl
      (fun x hx => hmk x (by simp [hx]))
    simp only at this
    rw [this]
    simp

theorem processLines_found :
    ∀ (lines : List PyStr) (hdr ftr : List PyStr) (r : Radio),
      processLines ⟨hdr, ftr, some r⟩ lines =
        .ok ⟨hdr ++ lines.filter (fun l => isMetaLine l),
             ftr ++ lines.filter (fun l => !isMetaLine l), some r⟩ := by
  intro lines
  induction lines with
  | nil => intro hdr ftr r; simp [processLines]
  | cons l rest ih =>
    intro hdr ftr r
    show (match processLine ⟨hdr, ftr, some r⟩ l with
          | Except.error e => Except.error e
          | Except.ok t1 => processLines t1 rest) = _
    rw [processLine]
    by_cases hm : isMetaLine l = true
    · simp only [hm, if_true]
      rw [ih (hdr ++ [l]) ftr r]
      simp [List.filter_cons, hm]
    · simp only [hm]
      rw [if_neg (by simp [hm])]
      show processLines ⟨hdr, ftr ++ [l], some r⟩ rest = _
      rw [ih hdr (ftr ++ [l]) r]
      simp [List.filter_cons, hm]

/-- Shared decomposition of `read_template`: with no marker before `l`
and the marker found in `l` with name `a`, the parse is decided by
`Radio(a)`; on success the remaining lines split into metadata
(header) and footer lines. -/
theorem read_template_decompose (pre : List PyStr) (l : PyStr) (rest : List PyStr)
    (b a : PyStr)
    (hpre : ∀ x ∈ pre, containsSub radioMarker x = false)
    (hsplit : splitFirst radioMarker l = some (b, a)) :
    (∀ r, radioFromValue a = some r →
      read_template (pre ++ l :: rest) =
        .ok ⟨pre ++ [l] ++ rest.filter (fun x => isMetaLine x) ++ [[]],
             rest.filter (fun x => !isMetaLine x), some r⟩) ∧
    (radioFromValue a = none →
      read_template (pre ++ l :: rest) = .error (.valueError a)) := by
  have hstep : processLines (⟨[], [], none⟩ : DmrConfigTemplate) (pre ++ l :: rest) =
      match processLine ⟨pre, [], none⟩ l with
      | .error e => .error e
      | .ok t1 => processLines t1 rest := by
    rw [processLines_append pre (l :: rest) ⟨[], [], none⟩,
      processLines_seeking pre ⟨[], [], none⟩ rfl hpre]
    simp only [List.nil_append]
    rfl
  constructor
  · intro r hr
    rw [read_template, hstep, processLine]
    simp only [hsplit, hr]
    rw [processLines_found rest (pre ++ [l]) [] r]
    simp
  · intro hr
    rw [read_template, hstep, processLine]
    simp only [hsplit, hr]

theorem read_template_no_marker (lines : List PyStr)
    (h : ∀ l ∈ lines, containsSub radioMarker l = false) :
    read_template lines =
      .error (.templateError (strL "template should specify a radio type")) := by
  rw [read_template, processLines_seeking lines ⟨[], [], none⟩ rfl h]

/-! ## Claim theorems -/

/-- C2: for every ordered sequence of distinct integers containing at
least one run of two or more consecutive values, expanding each token
produced by the Range Compressor (a bare integer expands to itself; a
pair `(low, high)` expands to `low, low+1, ..., high`) and
concatenating the expansions in token order reproduces the original
input sequence exactly, in the same order. -/
theorem claim_C2_round_trip (l : List Int) (hdistinct : l.Nodup)
    (hrun : ∃ k x, l.get? k = some x ∧ l.get? (k + 1) = some (x + 1))
    (toks : List RangeTok)
    (htoks : items_to_range_tuples (fun i => some i) l = some toks) :
    expandAll toks = l := by
  rw [items_to_range_tuples_id] at htoks
  obtain rfl : range_tuples_of_indices l = toks := Option.some.inj htoks
  exact expandAll_range_tuples l

/-- Witness for C2 at the concrete sequence `[1, 2, 3, 5]`. -/
theorem claim_C2_round_trip_witness :
    expandAll [RangeTok.pair 1 3, RangeTok.single 5] = [1, 2, 3, 5] :=
  claim_C2_round_trip [1, 2, 3, 5] (by decide)
    ⟨0, 1, by decide, by decide⟩ _ (by decide)

/-- C9: the Range Compressor produces the minimal number of tokens
among all order-preserving tokenizations into single values and ranges
(any token list whose expansion equals the input has at least as many
tokens); concretely, `[1,2,3,5]` compresses to `[(1,3), 5]`, which
`format_ranges` renders as `"1-3,5"`. -/
theorem claim_C9_minimal_tokens :
    (∀ (l : List Int) (toks t : List RangeTok),
      items_to_range_tuples (fun i => some i) l = some toks →
      expandAll t = l → toks.length ≤ t.length) ∧
    items_to_range_tuples (fun i => some i) [1, 2, 3, 5] =
      some [RangeTok.pair 1 3, RangeTok.single 5] ∧
    format_ranges [RangeTok.pair 1 3, RangeTok.single 5] = strL "1-3,5" := by
  refine ⟨fun l toks t htoks hexp => ?_, by decide, by decide⟩
  rw [items_to_range_tuples_id] at htoks
  obtain rfl : range_tuples_of_indices l = toks := Option.some.inj htoks
  exact range_tuples_minimal l t hexp

/-- Witness for C9: the compressed form of `[3, 5]` is no longer than
the two-singles tokenization. -/
theorem claim_C9_minimal_tokens_witness :
    (range_tuples_of_indices [3, 5]).length ≤
      [RangeTok.single 3, RangeTok.single 5].length :=
  claim_C9_minimal_tokens.1 [3, 5] _ _ (by decide) (by decide)

/-- C3 counterexample: in the template below the line `x` opens the
footer, yet the metadata-shaped line that follows it is still appended
to the header, so the footer is not the two remaining lines the claim
predicts. -/
theorem claim_C3_counterexample :
    read_template [strL "Radio: TYT MD-380", strL "x",
        strL "Last Programmed Date: 2021-01-01"] =
      .ok ⟨[strL "Radio: TYT MD-380", strL "Last Programmed Date: 2021-01-01", []],
           [strL "x"], some Radio.MD_380⟩ ∧
    ([strL "x"] : List PyStr) ≠
      [strL "x", strL "Last Programmed Date: 2021-01-01"] :=
  ⟨rfl, by decide⟩

/-- C3 amended: after the radio-identification line is found, each
remaining line matching a metadata marker is appended to the header
wherever it appears, and each non-matching line is appended to the
footer; the first non-matching line becomes the first footer line, but
later metadata-shaped lines still join the header — there is no
absorbing footer state. -/
theorem claim_C3_amended_no_footer_state (pre : List PyStr) (l : PyStr)
    (rest : List PyStr) (b a : PyStr) (r : Radio)
    (hpre : ∀ x ∈ pre, containsSub radioMarker x = false)
    (hsplit : splitFirst radioMarker l = some (b, a))
    (hradio : radioFromValue a = some r) :
    read_template (pre ++ l :: rest) =
      .ok ⟨pre ++ [l] ++ rest.filter (fun x => isMetaLine x) ++ [[]],
           rest.filter (fun x => !isMetaLine x), some r⟩ :=
  (read_template_decompose pre l rest b a hpre hsplit).1 r hradio

/-- Witness for the amended C3 at a concrete template. -/
theorem claim_C3_amended_witness :
    read_template [strL "Radio: TYT MD-380", strL "x",
        strL "CPS Software Version: 1.0"] =
      .ok ⟨[strL "Radio: TYT MD-380", strL "CPS Software Version: 1.0", []],
           [strL "x"], some Radio.MD_380⟩ :=
  claim_C3_amended_no_footer_state [] (strL "Radio: TYT MD-380")
    [strL "x", strL "CPS Software Version: 1.0"] [] (strL "TYT MD-380")
    Radio.MD_380 (by simp) (by decide) (by decide)

/-- C7 counterexample: this template's second line contains the marker
followed by a known radio name, yet parsing fails, because the first
marker line declares an unknown name — so the claim's success half is
false as stated. -/
theorem claim_C7_counterexample :
    read_template [strL "Radio: X9", strL "Radio: TYT MD-380"] =
      .error (.valueError (strL "X9")) ∧
    splitFirst radioMarker (strL "Radio: TYT MD-380") =
      some ([], strL "TYT MD-380") ∧
    radioFromValue (strL "TYT MD-380") = some Radio.MD_380 :=
  ⟨rfl, rfl, rfl⟩

/-- C7 amended: a template with no marker line fails with the
`TemplateError`, and otherwise the first marker line decides the
parse before any table work: an unknown declared name fails with the
`ValueError` of the radio enumeration, while a known name makes
parsing succeed and return that radio. -/
theorem claim_C7_first_marker_decides :
    (∀ lines : List PyStr, (∀ l ∈ lines, containsSub radioMarker l = false) →
      read_template lines =
        .error (.templateError (strL "template should specify a radio type"))) ∧
    (∀ (pre : List PyStr) (l : PyStr) (rest : List PyStr) (b a : PyStr),
      (∀ x ∈ pre, containsSub radioMarker x = false) →
      splitFirst radioMarker l = some (b, a) →
      ((radioFromValue a = none →
          read_template (pre ++ l :: rest) = .error (.valueError a)) ∧
        (∀ r, radioFromValue a = some r →
          ∃ t, read_template (pre ++ l :: rest) = .ok t ∧ t.radio = some r))) := by
  constructor
  · exact read_template_no_marker
  · intro pre l rest b a hpre hsplit
    obtain ⟨hok, herr⟩ := read_template_decompose pre l rest b a hpre hsplit
    exact ⟨herr, fun r hr => ⟨_, hok r hr, rfl⟩⟩

/-- Witness for the amended C7: a marker-less template and an
unknown-radio template both fail. -/
theorem claim_C7_first_marker_decides_witness :
    read_template [strL "hello"] =
      .error (.templateError (strL "template should specify a radio type")) ∧
    read_template [strL "Radio: nope"] = .error (.valueError (strL "nope")) :=
  ⟨claim_C7_first_marker_decides.1 [strL "hello"] (by decide),
   (claim_C7_first_marker_decides.2 [] (strL "Radio: nope") [] []
      (strL "nope") (by simp) (by decide)).1 (by decide)⟩

/-- C10: while no radio has been found, a line is accepted as the
radio-identification line whenever it contains `"Radio: "` anywhere in
the line; the radio name is everything after the first (leftmost)
occurrence of the marker, verbatim; and the line
`"My Radio: TYT MD-380"` is accepted and selects the TYT MD-380. -/
theorem claim_C10_marker_anywhere :
    (∀ s b a : PyStr, splitFirst radioMarker s = some (b, a) →
      s = b ++ radioMarker ++ a ∧
      ∀ b2 a2 : PyStr, s = b2 ++ radioMarker ++ a2 → b.length ≤ b2.length) ∧
    (∀ (l b a : PyStr) (r : Radio), splitFirst radioMarker l = some (b, a) →
      radioFromValue a = some r →
      read_template [l] = .ok ⟨[l, []], [], some r⟩) ∧
    read_template [strL "My Radio: TYT MD-380"] =
      .ok ⟨[strL "My Radio: TYT MD-380", []], [], some Radio.MD_380⟩ := by
  refine ⟨fun s b a h => ⟨splitFirst_sound radioMarker s b a h,
      fun b2 a2 he => splitFirst_first radioMarker s b a h b2 a2 he⟩,
    fun l b a r hsplit hr => ?_, rfl⟩
  have h := (read_template_decompose [] l [] b a (by simp) hsplit).1 r hr
  simpa using h

/-- Witness for C10 at another marker-not-at-start line. -/
theorem claim_C10_marker_anywhere_witness :
    read_template [strL "A Radio: Baofeng RD-5R"] =
      .ok ⟨[strL "A Radio: Baofeng RD-5R", []], [], some Radio.RD5R⟩ :=
  claim_C10_marker_anywhere.2.1 (strL "A Radio: Baofeng RD-5R") (strL "A ")
    (strL "Baofeng RD-5R") Radio.RD5R (by decide) (by decide)

/-- C8: rendered row numbers equal the Index Resolver's indices.  With
distinct channels and contacts (the upstream model is de-duplicated):
the resolver gives the entity at position `ix` the index `ix + 1`; the
channel tables pass exactly the 1-based enumeration position of the
full channel collection as the row number of each rendered subset row;
and a rendered channel row begins with that row number. -/
theorem claim_C8_row_number_is_resolved_index (cp : Codeplug) (radio : Radio)
    (hch : cp.channels.Nodup) (hco : cp.contacts.Nodup) :
    (∀ (ix : Nat) (ch : Channel), cp.channels.get? ix = some ch →
      (defaultIndex cp).channel ch = some ((ix : Int) + 1)) ∧
    (∀ (ix : Nat) (c : Contact), cp.contacts.get? ix = some c →
      (defaultIndex cp).contact c = some ((ix : Int) + 1)) ∧
    analogRows cp radio = collectSome ((enumFromIx 0 cp.channels).filterMap (fun p =>
      match p.2 with
      | Channel.analog a => some (analogRow (defaultIndex cp) radio ((p.1 : Int) + 1) a)
      | Channel.digital _ => none)) ∧
    digitalRows cp radio = collectSome ((enumFromIx 0 cp.channels).filterMap (fun p =>
      match p.2 with
      | Channel.digital d =>
        match d.talkgroup with
        | some tg => some (digitalRow (defaultIndex cp) radio ((p.1 : Int) + 1) d tg)
        | none => none
      | Channel.analog _ => none)) ∧
    (∀ (idx : CodeplugIndexLookup) (n : Int) (a : AnalogChannel) (row : PyStr),
      analogRow idx radio n a = some row →
      ∃ t2, row = PyVal.fmt 6 (PyVal.int n) ++ t2) := by
  refine ⟨?_, ?_, rfl, rfl, ?_⟩
  · intro ix ch hget
    exact items_by_index_get cp.channels id 1 (by simpa using hch) ix ch hget
  · intro ix c hget
    exact items_by_index_get cp.contacts id 1 (by simpa using hco) ix c hget
  · intro idx n a row h
    rw [analogRow] at h
    cases hp : a.power.flattened (power_keys radio) with
    | none => rw [hp] at h; simp at h
    | some pw =>
      cases hb : a.bandwidth.flattened (bandwidth_keys radio) with
      | none => rw [hp, hb] at h; simp at h
      | some bw =>
        rw [hp, hb] at h
        simp only [Option.some.injEq] at h
        subst h
        simp only [List.append_assoc]
        exact ⟨_, rfl⟩

/-- Witness for C8 at a two-channel codeplug: the second channel (a
digital one) resolves to index 2. -/
theorem claim_C8_witness :
    (defaultIndex ⟨[], [Channel.analog
        ⟨strL "a", 146, 0, Power.HIGH, none, false, none, none, Bandwidth._25⟩,
      Channel.digital
        ⟨strL "d", 440, 5, Power.LOW, none, false, 1, none, none⟩],
      [], [], []⟩).channel
      (Channel.digital ⟨strL "d", 440, 5, Power.LOW, none, false, 1, none, none⟩) =
      some 2 :=
  (claim_C8_row_number_is_resolved_index _ Radio.D868 (by decide) (by decide)).1
    1 _ (by decide)

/-- C1 counterexample: a codeplug with 65 scan lists — one more than
the GD-77's scan list limit `(1, 64)` — still renders successfully to
a full document (13 fixed chunks plus one row per scan list); no
capacity-exceeded failure occurs and an output document is produced. -/
theorem claim_C1_counterexample :
    overLimitCodeplug.scanlists.length = 65 ∧
    scanlist_limit Radio.GD77 = some (1, 64) ∧
    (render overLimitCodeplug Radio.GD77).isSome = true ∧
    (render overLimitCodeplug Radio.GD77).map List.length = some 78 := by
  refine ⟨by decide, by decide, ?_, ?_⟩ <;> decide

/-- C1 amended: the per-radio limit tables are not enforced by
rendering — every table renders one row per qualifying entity whatever
the count, so a table can exceed the radio's limit without any error
(the limits appear only in the documentation blocks). -/
theorem claim_C1_amended_limits_unenforced (cp : Codeplug) (radio : Radio) :
    (contactRows cp radio).length = cp.contacts.length ∧
    (∀ zr, zoneRows cp radio = some zr → zr.length = cp.zones.length) ∧
    (∀ sr, scanlistRows cp radio = some sr → sr.length = cp.scanlists.length) ∧
    (∀ gr, grouplistRows cp radio = some gr → gr.length = cp.grouplists.length) ∧
    (∀ ar, analogRows cp radio = some ar →
      ar.length = cp.channels.countP isAnalogCh) ∧
    (∀ dr, digitalRows cp radio = some dr →
      dr.length = cp.channels.countP isDigitalTgCh) := by
  refine ⟨?_, fun zr hzr => ?_, fun sr hsr => ?_, fun gr hgr => ?_,
    fun ar har => ?_, fun dr hdr => ?_⟩
  · simp [contactRows, length_enumFromIx]
  · rw [length_collectSome _ zr hzr]
    simp [length_enumFromIx]
  · rw [length_collectSome _ sr hsr]
    simp [length_enumFromIx]
  · rw [length_collectSome _ gr hgr]
    simp [length_enumFromIx]
  · rw [length_collectSome _ ar har]
    exact length_filterMap_enumFromIx _ isAnalogCh
      (fun i x => by cases x <;> simp [isAnalogCh]) cp.channels 0
  · rw [length_collectSome _ dr hdr]
    refine length_filterMap_enumFromIx _ isDigitalTgCh
      (fun i x => ?_) cp.channels 0
    cases x with
    | analog a => simp [isDigitalTgCh]
    | digital d =>
      cases htg : d.talkgroup with
      | none => simp [isDigitalTgCh, htg]
      | some tg => simp [isDigitalTgCh, htg]

/-- Witness for the amended C1 at concrete codeplugs. -/
theorem claim_C1_amended_limits_unenforced_witness :
    (contactRows ⟨[], [], [], [], []⟩ Radio.D868).length =
      (⟨[], [], [], [], []⟩ : Codeplug).contacts.length ∧
    ([] : List PyStr).length = (⟨[], [], [], [], []⟩ : Codeplug).zones.length :=
  ⟨(claim_C1_amended_limits_unenforced ⟨[], [], [], [], []⟩ Radio.D868).1,
   (claim_C1_amended_limits_unenforced ⟨[], [], [], [], []⟩ Radio.D868).2.1 [] rfl⟩

/-- C4 counterexample: on an empty codeplug `render` produces 13
chunks, not the 18 (three per table kind) the claim's per-table
version-stamped comment line implies, and the version comment appears
exactly once in the document rather than once per table kind. -/
theorem claim_C4_counterexample :
    (render ⟨[], [], [], [], []⟩ Radio.D868).map List.length = some 13 ∧
    (13 : Nat) ≠ 18 ∧
    (render ⟨[], [], [], [], []⟩ Radio.D868).map
        (fun doc => doc.countP (fun line => leadsWith versionLine line)) = some 1 ∧
    (1 : Nat) ≠ 6 := by
  refine ⟨?_, by decide, ?_, by decide⟩ <;> decide

/-- C4 amended: `render` emits one version-stamped comment line at the
top of the document, then for each of the six table kinds in the fixed
order analog, digital, contact, group list, scan list, zone: the
documentation block, the column-header line, and every data row; and
`render_template` appends the original footer lines unchanged after
the rendered tables. -/
theorem claim_C4_amended_render_layout (cp : Codeplug) (radio : Radio)
    (ar dr gr sr zr : List PyStr)
    (ha : analogRows cp radio = some ar) (hd : digitalRows cp radio = some dr)
    (hg : grouplistRows cp radio = some gr) (hs : scanlistRows cp radio = some sr)
    (hz : zoneRows cp radio = some zr) :
    render cp radio = some ([versionLine, analogDocs radio, analogHeader] ++ ar
      ++ [digitalDocs radio, digitalHeader] ++ dr
      ++ [contactDocs radio, contactHeader] ++ contactRows cp radio
      ++ [grouplistDocs radio, grouplistHeader] ++ gr
      ++ [scanlistDocs radio, scanlistHeader] ++ sr
      ++ [zoneDocs radio, zoneHeader] ++ zr) ∧
    (∀ t : DmrConfigTemplate, render_template t cp radio =
      some (joinNL (t.header
        ++ ([versionLine, analogDocs radio, analogHeader] ++ ar
          ++ [digitalDocs radio, digitalHeader] ++ dr
          ++ [contactDocs radio, contactHeader] ++ contactRows cp radio
          ++ [grouplistDocs radio, grouplistHeader] ++ gr
          ++ [scanlistDocs radio, scanlistHeader] ++ sr
          ++ [zoneDocs radio, zoneHeader] ++ zr)
        ++ t.footer))) := by
  have h1 : render cp radio = some ([versionLine, analogDocs radio, analogHeader] ++ ar
      ++ [digitalDocs radio, digitalHeader] ++ dr
      ++ [contactDocs radio, contactHeader] ++ contactRows cp radio
      ++ [grouplistDocs radio, grouplistHeader] ++ gr
      ++ [scanlistDocs radio, scanlistHeader] ++ sr
      ++ [zoneDocs radio, zoneHeader] ++ zr) := by
    rw [render, ha, hd, hg, hs, hz]
  exact ⟨h1, fun t => by rw [render_template, h1]; rfl⟩

/-- Witness for the amended C4 on an empty codeplug and a one-line
header/footer template. -/
theorem claim_C4_amended_render_layout_witness :
    render_template ⟨[strL "H"], [strL "F"], some Radio.MD_380⟩
        ⟨[], [], [], [], []⟩ Radio.MD_380 =
      some (joinNL ([strL "H"]
        ++ ([versionLine, analogDocs Radio.MD_380, analogHeader]
          ++ []
          ++ [digitalDocs Radio.MD_380, digitalHeader] ++ []
          ++ [contactDocs Radio.MD_380, contactHeader]
            ++ contactRows ⟨[], [], [], [], []⟩ Radio.MD_380
          ++ [grouplistDocs Radio.MD_380, grouplistHeader] ++ []
          ++ [scanlistDocs Radio.MD_380, scanlistHeader] ++ []
          ++ [zoneDocs Radio.MD_380, zoneHeader] ++ [])
        ++ [strL "F"])) :=
  (claim_C4_amended_render_layout ⟨[], [], [], [], []⟩ Radio.MD_380
    [] [] [] [] [] rfl rfl rfl rfl rfl).2
    ⟨[strL "H"], [strL "F"], some Radio.MD_380⟩

/-- C5 counterexample: the name `"ABCD3 XY"` ends in a digit, a space
and two uppercase letters — a tail of four characters — and the limit
6 leaves room for that tail plus one more character, yet the output
`"ABC XY"` does not end with `"3 XY"`: the code's tail pattern only
admits the digits 1 and 2, so the 3 is truncated away with the middle.
Likewise `"ABCDE F"` with limit 3 (room for the tail `" F"` plus one
character) is plainly truncated to `"ABC"`, because the code requires
room for the tail plus two characters before preserving it. -/
theorem claim_C5_counterexample :
    channel_name (strL "ABCD3 XY") 6 = strL "ABC XY" ∧
    (strL "ABC XY").drop ((strL "ABC XY").length - (strL "3 XY").length) ≠
      strL "3 XY" ∧
    channel_name (strL "ABCDE F") 3 = strL "ABC" ∧
    (strL "ABC").drop ((strL "ABC").length - (strL " F").length) ≠ strL " F" :=
  ⟨by decide, by decide, by decide, by decide⟩

/-- C5 amended: for every name whose end matches the code's tail
pattern — optionally the digit 1 or 2, then one whitespace character,
then one or more uppercase letters — and every limit that leaves room
for that tail plus at least two characters, the Name Normalizer's
output ends with exactly that tail substring (the phrase substitutions
cannot disturb the tail, and the mid-section truncation preserves
it). -/
theorem claim_C5_amended_tail_preserved (s t : PyStr) (L : Nat)
    (ht : tailCode s = some t) (hL : t.length + 1 < L) :
    (channel_name s L).drop ((channel_name s L).length - t.length) = t := by
  obtain ⟨p, run, w, hrunne, hupper, hsp, hcase⟩ := tailCode_inversion s t ht
  have hpairs : ∀ kv ∈ talkgroupReplacements,
      0 < kv.1.length ∧ (∀ c, kv.1.getLast? = some c → isLowerCh c = true) ∧
      kv.2 ≠ [] ∧ lastNotDigitB kv.2 = true := by
    have hb : ∀ kv ∈ talkgroupReplacements,
        0 < kv.1.length ∧ kv.1.getLast?.map isLowerCh = some true ∧
        kv.2 ≠ [] ∧ lastNotDigitB kv.2 = true := by decide
    intro kv hkv
    obtain ⟨h1, h2, h3, h4⟩ := hb kv hkv
    refine ⟨h1, ?_, h3, h4⟩
    intro c hc
    rw [hc] at h2
    simpa using h2
  rcases hcase with ⟨d, hd, rfl, hs⟩ | ⟨rfl, hs, hpd⟩
  · have htnl : ∀ c ∈ (d :: w :: run : PyStr), isLowerCh c = false := by
      intro c hc
      rcases List.mem_cons.mp hc with rfl | hc2
      · exact digit12_not_lower c hd
      rcases List.mem_cons.mp hc2 with rfl | hc3
      · exact space_not_lower c hsp
      · exact upper_not_lower c (hupper c hc3)
    obtain ⟨p2, heq, -⟩ := applyReplacements_split talkgroupReplacements hpairs
      (d :: w :: run) htnl p L
    rw [hs]
    exact channel_name_tail (p ++ d :: w :: run) (d :: w :: run) p2 L heq
      (tailCode_digit p2 d w run hrunne hupper hsp hd) hL
  · have htnl : ∀ c ∈ (w :: run : PyStr), isLowerCh c = false := by
      intro c hc
      rcases List.mem_cons.mp hc with rfl | hc2
      · exact space_not_lower c hsp
      · exact upper_not_lower c (hupper c hc2)
    obtain ⟨p2, heq, himp⟩ := applyReplacements_split talkgroupReplacements hpairs
      (w :: run) htnl p L
    rw [hs]
    exact channel_name_tail (p ++ w :: run) (w :: run) p2 L heq
      (tailCode_nodigit p2 w run hrunne hupper hsp (himp hpd)) hL

/-- Witness for the amended C5 at a concrete over-length name. -/
theorem claim_C5_amended_tail_preserved_witness :
    (channel_name (strL "ABCD1 XY") 6).drop
      ((channel_name (strL "ABCD1 XY") 6).length - (strL "1 XY").length) =
      strL "1 XY" :=
  claim_C5_amended_tail_preserved (strL "ABCD1 XY") (strL "1 XY") 6
    (by decide) (by decide)

/-- C6: for every input string and every limit `L ≥ 1`, the Name
Normalizer returns a string of length at most `L`; as a total Lean
function it never fails — the final backstop truncation always applies. -/
theorem claim_C6_length_bound (s : PyStr) (L : Nat) (hL : 1 ≤ L) :
    (channel_name s L).length ≤ L := by
  show (List.take L _).length ≤ L
  exact List.length_take_le L _

/-- Witness for C6 at a concrete over-length name. -/
theorem claim_C6_length_bound_witness :
    (channel_name (strL "Seattle Metro 2 WW") 10).length ≤ 10 :=
  claim_C6_length_bound (strL "Seattle Metro 2 WW") 10 (by decide)

end Dzcb
